import Mathlib

/-!
Exact matches of k-mers to sequences (`map_strings.cpp`).

A shallow embedding of `call_strings` and `seq_search` from `src/map_strings.cpp`.

* Vectors are lists. Machine integers are natural numbers with explicit wrap-around: the loop
  counter `thread_idx` and `num_big_threads` are `unsigned int` (modulo `2 ^ 32`), `start` is a
  `size_t` (modulo `2 ^ 64`).
* A loop that need not end carries a bound on its iterations; a loop that exhausts every bound
  never ends.
* An unchecked read outside a vector is undefined behaviour in C++; here it yields a failure.
* `assert` is active or absent according to the build (`NDEBUG`), which is an input.
* `std::async` tasks and their futures are explicit: a future carries the arguments of its task
  and a shared state that the worker writes when it finishes.  The order in which workers finish
  is an input of the model (a `Schedule`), so that statements can quantify over it.
* A second model of the two counting loops, without wrap-around (`make_start_points`,
  `launch_loop`), serves as a reference; it agrees with the loops of the program for
  `num_threads < 2 ^ 32`.
-/

namespace MapStrings

/-! ## Collaborators declared outside `map_strings.cpp` -/

/-- Modelled from the spec: the class `Fasta`, which is declared outside `map_strings.cpp`.
A loaded sequence has a display name and a nucleotide string as content. -/
structure Fasta where
  name : String
  sequence : String
  deriving DecidableEq, Repr

/-- Modelled from the spec: `Fasta::get_name`, which is declared outside `map_strings.cpp`.
It returns the display name of the sequence. -/
def Fasta.get_name (fasta : Fasta) : String :=
  fasta.name

/-- Modelled from the spec: `Fasta::hasSeq`, which is declared outside `map_strings.cpp`.
Exact, case-sensitive substring containment: some suffix of the content starts with `search`. -/
def Fasta.hasSeq (fasta : Fasta) (search : String) : Bool :=
  fasta.sequence.data.tails.any (fun rest => search.data.isPrefixOf rest)

/-- Modelled from the spec: the nucleotide complement table used by `rev_comp`
(A and T swap, C and G swap, every other character passes through). -/
def complement (c : Char) : Char :=
  if c = 'A' then 'T'
  else if c = 'T' then 'A'
  else if c = 'C' then 'G'
  else if c = 'G' then 'C'
  else c

/-- Modelled from the spec: `rev_comp`, which is declared outside `map_strings.cpp`.
Every character is complemented and the result is reversed. -/
def rev_comp (seq : String) : String :=
  String.mk (seq.data.map complement).reverse

/-! ## `seq_search` (lines 94-106) -/

/-- The loop of `seq_search`: `fasta_it` is the offset of the iterator from `sequences.begin()`,
`stop` the offset of `sequences.begin() + end`.  The loop leaves when the two iterators are equal;
otherwise it dereferences `fasta_it`, which has no value (`none`) outside the vector. The first
argument bounds the number of iterations. -/
def seq_search_loop (query rev_query : String) (sequences : List Fasta) (stop : Nat) :
    Nat → Nat → List String → Option (List String)
  | 0, _, _ => none
  | fuel + 1, fasta_it, present =>
    if fasta_it = stop then some present
    else
      match sequences[fasta_it]? with
      | none => none
      | some fasta =>
        if fasta.hasSeq query || fasta.hasSeq rev_query then
          seq_search_loop query rev_query sequences stop fuel (fasta_it + 1)
            (present ++ [fasta.get_name])
        else
          seq_search_loop query rev_query sequences stop fuel (fasta_it + 1) present

/-- The function `seq_search(query, sequences, start, end)`.  The iterator can advance at most
`sequences.size()` times before it leaves the vector, so `sequences.size() + 1` iterations
always decide the loop; `none` is an access outside the vector. -/
def seq_search (query : String) (sequences : List Fasta) (start stop : Nat) :
    Option (List String) :=
  let rev_query := rev_comp query
  seq_search_loop query rev_query sequences stop (sequences.length + 1) start []

/-! ## Futures and the state of `call_strings` -/

/-- The shared state of a `std::future`: empty while the task runs, then the value returned by
the task (`none` when the task itself read outside the vector). -/
inductive SharedState where
  | running
  | ready (value : Option (List String))
  deriving DecidableEq, Repr

/-- A future returned by `std::async(std::launch::async, seq_search, query, sequences, start, end)`:
the arguments bound to the task and its shared state. -/
structure Future where
  query : String
  start : Nat
  stop : Nat
  shared : SharedState
  deriving DecidableEq, Repr

/-- The order in which worker threads finish.  Entry `k` lists the queue positions (front is 0)
of the tasks that finish while the coordinator waits for the `k`-th time in `get()`. -/
abbrev Schedule := List (List Nat)

/-- The variables of `call_strings` that outlive one statement: what has been written to
`pres_ofs`, the queue `map_threads` (front first), the number of tasks launched so far with
`std::async` (bookkeeping only), and the part of the schedule that is still to come. -/
structure State where
  pres_ofs : String
  map_threads : List Future
  launched : Nat
  sched : Schedule
  deriving DecidableEq, Repr

/-- The ways in which a run stops without reaching the end of `call_strings`. -/
inductive Failure where
  /-- The statement `assert(num_threads >= 1)` aborts the process, in the given state. -/
  | assertion_failed (st : State)
  /-- Integer division or remainder by zero. -/
  | division_by_zero
  /-- An unchecked read outside a vector. -/
  | out_of_range
  /-- The iteration bound of a modelled loop was too small. -/
  | fuel_exhausted
  deriving DecidableEq, Repr

/-- The state in which `call_strings` starts: nothing written, no future queued, no task
launched. -/
def State.init (sched : Schedule) : State :=
  { pres_ofs := "", map_threads := [], launched := 0, sched := sched }

/-- A worker thread finishes: it runs `seq_search` on the arguments of the task and stores the
result in the shared state. -/
def Future.complete (sequences : List Fasta) (fut : Future) : Future :=
  match fut.shared with
  | .running =>
    { fut with shared := .ready (seq_search fut.query sequences fut.start fut.stop) }
  | .ready _ => fut

/-- The call `get()` on a future: it blocks until the task has finished and returns the stored
value. -/
def Future.get (sequences : List Fasta) (fut : Future) : Option (List String) :=
  match (fut.complete sequences).shared with
  | .ready value => value
  | .running => none

/-- The tasks at the queue positions in `picks` finish; `pos` is the position of the head of
the given part of the queue. -/
def run_tasks (sequences : List Fasta) (picks : List Nat) : Nat → List Future → List Future
  | _, [] => []
  | pos, fut :: rest =>
    (if pos ∈ picks then fut.complete sequences else fut)
      :: run_tasks sequences picks (pos + 1) rest

/-- How a run stops that does not reach the end of `call_strings`: the failure, and what the
output file holds at that moment (`none` while `pres_ofs` has not been opened, so that the file
has not been created or emptied). -/
structure Stopped where
  failure : Failure
  output_file : Option String
  deriving DecidableEq, Repr

/-! ## The counting loops of `call_strings` (lines 33-67) with machine integers

`thread_idx` and `num_big_threads` are `unsigned int` (32 bits, arithmetic modulo `2 ^ 32`);
`start`, `calc_per_thread` and `num_threads` have 64 bits. In the comparison
`thread_idx < num_threads` the counter is converted to the wider type, so the values are
compared as they are. Every loop counts its iterations. -/

/-- Line 34: the remainder `sequences.size() % num_threads`, stored in an `unsigned int`. -/
def num_big_threads_u32 (size num_threads : Nat) : Nat :=
  (size % num_threads) % 2 ^ 32

/-- Lines 38-52 with a 32-bit counter: the result is the number of iterations, the final value
of `start` and the vector `start_points`. The first argument bounds the number of
iterations. -/
def partition_loop_u32 (num_threads calc_per_thread num_big_threads : Nat) :
    Nat → Nat → Nat → List Nat → Nat → Except Failure (Nat × Nat × List Nat)
  | 0, _, _, _, _ => .error .fuel_exhausted
  | fuel + 1, thread_idx, start, start_points, iterations =>
    if thread_idx < num_threads then
      let start_points := start_points ++ [start]
      let start :=
        if thread_idx < num_big_threads then (start + (calc_per_thread + 1) % 2 ^ 64) % 2 ^ 64
        else (start + calc_per_thread) % 2 ^ 64
      partition_loop_u32 num_threads calc_per_thread num_big_threads fuel
        ((thread_idx + 1) % 2 ^ 32) start start_points (iterations + 1)
    else
      .ok (iterations, start, start_points)

/-- Lines 33-53 with machine integers: the number of iterations of the partition loop and the
vector `start_points`. -/
def make_start_points_u32 (fuel size num_threads : Nat) : Except Failure (Nat × List Nat) :=
  if num_threads = 0 then .error .division_by_zero
  else
    let calc_per_thread := size / num_threads
    let num_big_threads := num_big_threads_u32 size num_threads
    match partition_loop_u32 num_threads calc_per_thread num_big_threads fuel 0 0 [] 0 with
    | .error e => .error e
    | .ok (iterations, start, start_points) => .ok (iterations, start_points ++ [start])

/-- Lines 59-67 with a 32-bit counter, also in the index `thread_idx + 1`: the result is the
number of iterations and the state after the loop. The first argument bounds the number of
iterations. -/
def launch_loop_u32 (unitig : String) (start_points : List Nat) (num_threads : Nat) :
    Nat → Nat → State → Nat → Except Failure (Nat × State)
  | 0, _, _, _ => .error .fuel_exhausted
  | fuel + 1, thread_idx, st, iterations =>
    if thread_idx < num_threads then
      match start_points[thread_idx]?, start_points[(thread_idx + 1) % 2 ^ 32]? with
      | some start, some stop =>
        let fut : Future := { query := unitig, start := start, stop := stop, shared := .running }
        launch_loop_u32 unitig start_points num_threads fuel ((thread_idx + 1) % 2 ^ 32)
          { st with map_threads := st.map_threads ++ [fut], launched := st.launched + 1 }
          (iterations + 1)
      | _, _ => .error .out_of_range
    else
      .ok (iterations, st)

/-! ## `call_strings` (lines 10-92) -/

/-- Lines 71-77: while the queue is not empty, wait for the front future, pop it and append its
value to `present`.  While the coordinator waits, the tasks named by the head of the schedule
finish.  The first argument bounds the number of iterations. -/
def drain_loop (sequences : List Fasta) :
    Nat → State → List String → Except Failure (State × List String)
  | 0, st, present =>
    match st.map_threads with
    | [] => .ok (st, present)
    | _ :: _ => .error .fuel_exhausted
  | fuel + 1, st, present =>
    match st.map_threads with
    | [] => .ok (st, present)
    | front :: rest =>
      let picks := st.sched.headD []
      let front := if 0 ∈ picks then front.complete sequences else front
      let rest := run_tasks sequences picks 1 rest
      match front.get sequences with
      | none => .error .out_of_range
      | some thread_present =>
        drain_loop sequences fuel { st with map_threads := rest, sched := st.sched.tail }
          (present ++ thread_present)

/-- Lines 59-77: the launch loop, with its 32-bit counter and at most `fuel` iterations, then the
collecting loop.  Every iteration of the collecting loop pops one future, so the length of the
queue bounds it. -/
def search_query (sequences : List Fasta) (start_points : List Nat) (num_threads fuel : Nat)
    (st : State) (unitig : String) : Except Failure (State × List String) :=
  match launch_loop_u32 unitig start_points num_threads fuel 0 st 0 with
  | .error e => .error e
  | .ok (_, st) => drain_loop sequences st.map_threads.length st []

/-- Lines 80-88: the text written to `pres_ofs` for one query. -/
def print_results (pres_ofs : String) (unitig : String) (present : List String) : String :=
  if present.length > 0 then
    let out := pres_ofs ++ unitig ++ " |"
    let out := present.foldl (fun out pres => out ++ " " ++ pres ++ ":1") out
    out ++ "\n"
  else
    pres_ofs

/-- The body of the loop over `query_list` (lines 57-89).  Nothing is written before the
collecting loop has ended, so a failure leaves the output as it was. -/
def query_step (sequences : List Fasta) (start_points : List Nat) (num_threads fuel : Nat)
    (st : State) (unitig : String) : Except Stopped State :=
  match search_query sequences start_points num_threads fuel st unitig with
  | .error e => .error { failure := e, output_file := some st.pres_ofs }
  | .ok (st, present) => .ok { st with pres_ofs := print_results st.pres_ofs unitig present }

/-- The loop over `query_list` (lines 57-89). -/
def query_loop (sequences : List Fasta) (start_points : List Nat) (num_threads fuel : Nat) :
    List String → State → Except Stopped State
  | [], st => .ok st
  | unitig :: rest, st =>
    match query_step sequences start_points num_threads fuel st unitig with
    | .error e => .error e
    | .ok st => query_loop sequences start_points num_threads fuel rest st

/-- The function `call_strings`.

* `ndebug` tells whether the build defines `NDEBUG`; if it does, the statement
  `assert(num_threads >= 1)` of line 16 is absent.
* `fuel` bounds the iterations of the partition loop and of every launch loop.
* `sequences` is the vector built by lines 20-26 (the constructor of `Fasta` reads a file and is
  not part of this source file).
* `sched` is the order in which the worker threads finish.

After the assertion, lines 18-29 read the sequences and open `pres_ofs`, which creates the
output file empty; the division of line 33 comes after that. -/
def call_strings (ndebug : Bool) (fuel : Nat) (sequences : List Fasta)
    (query_list : List String) (num_threads : Nat) (sched : Schedule) : Except Stopped State :=
  let st := State.init sched
  if ndebug = false ∧ ¬ num_threads ≥ 1 then
    .error { failure := .assertion_failed st, output_file := none }
  else
    match make_start_points_u32 fuel sequences.length num_threads with
    | .error e => .error { failure := e, output_file := some st.pres_ofs }
    | .ok (_, start_points) =>
      query_loop sequences start_points num_threads fuel query_list st

/-- The bytes in the output file after a run, when the run reaches the end. -/
def output (ndebug : Bool) (fuel : Nat) (sequences : List Fasta) (query_list : List String)
    (num_threads : Nat) (sched : Schedule) : Option String :=
  match call_strings ndebug fuel sequences query_list num_threads sched with
  | .ok st => some st.pres_ofs
  | .error _ => none

/-- What a run leaves in the output file, whether it reaches the end or stops before. -/
def file_after (run : Except Stopped State) : Option String :=
  match run with
  | .ok st => some st.pres_ofs
  | .error stopped => stopped.output_file

/-! ## The counting loops without wrap-around (reference) -/

/-- One iteration of the partition loop without wrap-around: push `start`, then advance it by
the number of jobs of this thread. -/
def partition_step (calc_per_thread num_big_threads : Nat) (acc : Nat × List Nat)
    (thread_idx : Nat) : Nat × List Nat :=
  let start := acc.1
  let start_points := acc.2 ++ [start]
  if thread_idx < num_big_threads then
    (start + (calc_per_thread + 1), start_points)
  else
    (start + calc_per_thread, start_points)

/-- The partition without wrap-around, a reference for `make_start_points_u32`: the counter
ranges over `0, ..., num_threads - 1` as a natural number.  It is what lines 33-53 compute when
`num_threads < 2 ^ 32`, and not beyond. -/
def make_start_points (size num_threads : Nat) : Except Failure (List Nat) :=
  if num_threads = 0 then .error .division_by_zero
  else
    let calc_per_thread := size / num_threads
    let num_big_threads := size % num_threads
    let acc := (List.range num_threads).foldl
      (partition_step calc_per_thread num_big_threads) (0, [])
    .ok (acc.2 ++ [acc.1])

/-- The launch loop without wrap-around, a reference for `launch_loop_u32`: for every
`thread_idx` of the given list in turn, read `start_points[thread_idx]` and
`start_points[thread_idx + 1]` and push the future of a new task. -/
def launch_loop (unitig : String) (start_points : List Nat) :
    List Nat → State → Except Failure State
  | [], st => .ok st
  | thread_idx :: rest, st =>
    match start_points[thread_idx]?, start_points[thread_idx + 1]? with
    | some start, some stop =>
      let fut : Future := { query := unitig, start := start, stop := stop, shared := .running }
      launch_loop unitig start_points rest
        { st with map_threads := st.map_threads ++ [fut], launched := st.launched + 1 }
    | _, _ => .error .out_of_range

/-! ## Reference definitions, written from the specification -/

/-- The closed form of the partition in the words of the specification: with
`q = size div num_threads` and `r = size mod num_threads`, the first `r` ranges have `q + 1`
items and the others `q`, so range `i` starts at `i * q + min i r`. -/
def start_point (size num_threads i : Nat) : Nat :=
  i * (size / num_threads) + min i (size % num_threads)

/-- The test of the specification for one sequence: the query occurs in the sequence in at
least one orientation. -/
def contains_either (query : String) (fasta : Fasta) : Bool :=
  fasta.hasSeq query || fasta.hasSeq (rev_comp query)

/-- The reference definition of the chunk search in the words of the specification: the names
of the sequences of the slice `[start, stop)` that contain the query in some orientation, in
ascending index order (filter, then map). -/
def seq_search_ref (query : String) (sequences : List Fasta) (start stop : Nat) : List String :=
  (((sequences.drop start).take (stop - start)).filter (contains_either query)).map
    Fasta.get_name

/-- The tokens of an output line in the words of the specification: for every matched name a
space, the name and `:1`. -/
def line_tokens : List String → String
  | [] => ""
  | name :: rest => " " ++ name ++ ":1" ++ line_tokens rest

/-- The output line of the specification: the query, the separator `" |"`, the tokens and a line
break. -/
def format_line (query : String) (names : List String) : String :=
  query ++ " |" ++ line_tokens names ++ "\n"

/-- The text that one query adds to the output in the words of the specification: its line when
some sequence matched, nothing otherwise. -/
def query_output (query : String) (names : List String) : String :=
  if names = [] then "" else format_line query names

/-- The value that the task of a future returns. -/
def Future.value (sequences : List Fasta) (fut : Future) : Option (List String) :=
  seq_search fut.query sequences fut.start fut.stop

/-- A future is consistent when its shared state is empty or holds the value returned by its
own task. -/
def Future.consistent (sequences : List Fasta) (fut : Future) : Prop :=
  fut.shared = .running ∨ fut.shared = .ready (fut.value sequences)

/-- A future delivers `part` when it is consistent and its task returns `part`. -/
def delivers (sequences : List Fasta) (fut : Future) (part : List String) : Prop :=
  fut.consistent sequences ∧ fut.value sequences = some part

/-- The matches of a query over all sequences, by the reference definition. -/
def all_matches (sequences : List Fasta) (query : String) : List String :=
  seq_search_ref query sequences 0 sequences.length

/-- The line of a query in the words of the specification, when there is one. -/
def query_line (sequences : List Fasta) (query : String) : Option String :=
  if all_matches sequences query = [] then none
  else some (format_line query (all_matches sequences query))

/-- The whole output in the words of the specification: the outputs of the queries in input
order. -/
def run_output (sequences : List Fasta) : List String → String
  | [] => ""
  | query :: rest =>
    query_output query (all_matches sequences query) ++ run_output sequences rest

/-- The sequences of the example in the specification. -/
def example_sequences : List Fasta :=
  [{ name := "ref1", sequence := "ACGTACGT" }, { name := "ref2", sequence := "TTTT" }]

/-- The number of non-degenerate ranges of a partition in the words of the specification: the
thread indices `i` below `num_threads` with `start_points[i] < start_points[i + 1]`. -/
def nondegenerate_ranges (start_points : List Nat) (num_threads : Nat) : Nat :=
  (List.range num_threads).countP (fun i =>
    match start_points[i]?, start_points[i + 1]? with
    | some a, some b => decide (a < b)
    | _, _ => false)

/-- The loop of `seq_search` (lines 98-104) together with a log of the offsets at which the
iterator is dereferenced; apart from the log it is `seq_search_loop`. -/
def seq_search_visits (query rev_query : String) (sequences : List Fasta) (stop : Nat) :
    Nat → Nat → List Nat → List String → Option (List Nat × List String)
  | 0, _, _, _ => none
  | fuel + 1, fasta_it, visited, present =>
    if fasta_it = stop then some (visited, present)
    else
      match sequences[fasta_it]? with
      | none => none
      | some fasta =>
        if fasta.hasSeq query || fasta.hasSeq rev_query then
          seq_search_visits query rev_query sequences stop fuel (fasta_it + 1)
            (visited ++ [fasta_it]) (present ++ [fasta.get_name])
        else
          seq_search_visits query rev_query sequences stop fuel (fasta_it + 1)
            (visited ++ [fasta_it]) present

/-- The values of the futures of a queue, appended to `present` in queue order; `none` when
some task read outside the vector of sequences. -/
def collect_values (sequences : List Fasta) : List Future → List String → Option (List String)
  | [], present => some present
  | fut :: rest, present =>
    match fut.value sequences with
    | none => none
    | some part => collect_values sequences rest (present ++ part)

/-- Two states that differ at most in the order in which the workers finish. -/
def State.similar (a b : State) : Prop :=
  a.pres_ofs = b.pres_ofs ∧ a.map_threads = b.map_threads ∧ a.launched = b.launched

/-- Two runs have the same outcome when both reach the end with the same output, or both stop
with the same failure and the same content of the output file. -/
def same_outcome (run1 run2 : Except Stopped State) : Prop :=
  match run1, run2 with
  | .ok st1, .ok st2 => st1.pres_ofs = st2.pres_ofs
  | .error stopped1, .error stopped2 => stopped1 = stopped2
  | _, _ => False

/-! ## The embedding on concrete inputs -/

/-- The examples of the specification: `ACGT` is found in `ref1`, `AAAA` in `ref2` through its
reverse complement, and `GGGG` nowhere, so it gets no line. -/
theorem example_run :
    output false 3 example_sequences ["ACGT", "AAAA", "GGGG"] 2 [[1]]
      = some "ACGT | ref1:1\nAAAA | ref2:1\n" := by
  decide

theorem example_more_threads_than_sequences :
    output true 6 example_sequences ["ACGT", "TTTT"] 5 [[4, 0], [], [2]]
      = some "ACGT | ref1:1\nTTTT | ref2:1\n" := by
  decide

theorem example_no_sequences : output false 4 [] ["ACGT"] 3 [] = some "" := by
  decide

/-- A bound on the iterations that is too small for the three iterations of the partition
loop and its final test. -/
theorem example_small_bound :
    call_strings false 3 example_sequences ["ACGT"] 3 []
      = .error { failure := .fuel_exhausted, output_file := some "" } :=
  rfl

/-- No thread, with and without `NDEBUG`. -/
theorem example_no_thread :
    call_strings false 5 example_sequences ["ACGT"] 0 []
        = .error { failure := .assertion_failed (State.init []), output_file := none }
      ∧ call_strings true 5 example_sequences ["ACGT"] 0 []
        = .error { failure := .division_by_zero, output_file := some "" } :=
  ⟨rfl, rfl⟩

theorem example_start_points :
    make_start_points 7 3 = .ok [0, 3, 5, 7] ∧ make_start_points 2 5 = .ok [0, 1, 2, 2, 2, 2] :=
  ⟨rfl, rfl⟩

theorem example_seq_search :
    seq_search "AAAA" example_sequences 0 2 = some ["ref2"]
      ∧ seq_search "AAAA" example_sequences 0 1 = some []
      ∧ seq_search "AAAA" example_sequences 1 5 = none
      ∧ seq_search "AAAA" example_sequences 2 1 = none := by
  decide

/-- The order in which the workers finish is visible in the shared states of the futures. -/
theorem example_schedule :
    run_tasks example_sequences [1] 0
        [{ query := "ACGT", start := 0, stop := 1, shared := .running },
         { query := "ACGT", start := 1, stop := 2, shared := .running }]
      = [{ query := "ACGT", start := 0, stop := 1, shared := .running },
         { query := "ACGT", start := 1, stop := 2, shared := .ready (some []) }] := by
  decide

theorem example_visits :
    seq_search_visits "AAAA" "TTTT" example_sequences 2 3 0 [] [] = some ([0, 1], ["ref2"])
      ∧ seq_search_visits "AAAA" "TTTT" example_sequences 3 3 1 [] [] = none := by
  decide

theorem example_nondegenerate_ranges :
    nondegenerate_ranges [0, 1, 2, 2, 2, 2] 5 = 2 ∧ nondegenerate_ranges [0, 3, 5, 7] 3 = 3 := by
  decide

theorem example_machine_integers :
    make_start_points_u32 4 7 3 = .ok (3, [0, 3, 5, 7])
      ∧ make_start_points_u32 3 7 3 = .error .fuel_exhausted
      ∧ launch_loop_u32 "ACGT" [0, 1, 2] 2 3 0 (State.init []) 0
        = .ok (2, { pres_ofs := "", launched := 2, sched := [], map_threads :=
            [{ query := "ACGT", start := 0, stop := 1, shared := .running },
             { query := "ACGT", start := 1, stop := 2, shared := .running }] }) :=
  ⟨rfl, rfl, rfl⟩

/-! ## The partition without wrap-around and its closed form -/

theorem partition_foldl (q r k : Nat) :
    (List.range k).foldl (partition_step q r) (0, [])
      = (k * q + min k r, (List.range k).map (fun i => i * q + min i r)) := by
  induction k with
  | zero => simp
  | succ k ih =>
    rw [List.range_succ, List.foldl_append, ih]
    simp only [List.foldl_cons, List.foldl_nil, partition_step, List.map_append, List.map_cons,
      List.map_nil]
    have hmul : (k + 1) * q = k * q + q := Nat.succ_mul k q
    split_ifs with h
    · congr 1
      rw [hmul]; omega
    · congr 1
      rw [hmul]; omega

theorem make_start_points_eq (size num_threads : Nat) (h : 1 ≤ num_threads) :
    make_start_points size num_threads
      = .ok ((List.range (num_threads + 1)).map (start_point size num_threads)) := by
  have h0 : num_threads ≠ 0 := by omega
  simp only [make_start_points, h0, if_false, partition_foldl]
  rw [List.range_succ, List.map_append]
  rfl

theorem start_points_get (f : Nat → Nat) (n i : Nat) (h : i ≤ n) :
    ((List.range (n + 1)).map f)[i]? = some (f i) := by
  rw [List.getElem?_map, List.getElem?_range (by omega)]
  rfl

theorem start_points_get_some (f : Nat → Nat) (n i a : Nat)
    (h : ((List.range (n + 1)).map f)[i]? = some a) : i ≤ n ∧ a = f i := by
  by_cases hi : i ≤ n
  · rw [start_points_get f n i hi] at h
    exact ⟨hi, (Option.some.inj h).symm⟩
  · rw [List.getElem?_eq_none (by simp; omega)] at h
    cases h

theorem start_point_zero (size num_threads : Nat) : start_point size num_threads 0 = 0 := by
  simp [start_point]

theorem start_point_last (size num_threads : Nat) (h : 1 ≤ num_threads) :
    start_point size num_threads num_threads = size := by
  have hlt : size % num_threads < num_threads := Nat.mod_lt _ (by omega)
  have hdm := Nat.div_add_mod size num_threads
  simp only [start_point]
  rw [Nat.min_eq_right (Nat.le_of_lt hlt)]
  exact hdm

theorem start_point_succ (size num_threads i : Nat) :
    start_point size num_threads (i + 1)
      = start_point size num_threads i
        + (if i < size % num_threads then size / num_threads + 1 else size / num_threads) := by
  simp only [start_point]
  have hmul : (i + 1) * (size / num_threads) = i * (size / num_threads) + size / num_threads :=
    Nat.succ_mul _ _
  rw [hmul]
  split_ifs with h <;> omega

theorem start_point_mono (size num_threads : Nat) {i j : Nat} (h : i ≤ j) :
    start_point size num_threads i ≤ start_point size num_threads j := by
  simp only [start_point]
  have h1 : i * (size / num_threads) ≤ j * (size / num_threads) := Nat.mul_le_mul_right _ h
  omega

theorem start_point_le_size (size num_threads i : Nat) (h1 : 1 ≤ num_threads)
    (h : i ≤ num_threads) : start_point size num_threads i ≤ size := by
  have hlast := start_point_last size num_threads h1
  have hmono := start_point_mono size num_threads h
  omega

/-- A monotone sequence that starts at or below `x` and ends above `x` has a step around `x`. -/
theorem exists_step (f : Nat → Nat) (x : Nat) :
    ∀ n, f 0 ≤ x → x < f n → ∃ i, i < n ∧ f i ≤ x ∧ x < f (i + 1) := by
  intro n
  induction n with
  | zero => intro h0 hn; omega
  | succ n ih =>
    intro h0 hn
    by_cases hx : x < f n
    · obtain ⟨i, hi, h1, h2⟩ := ih h0 hx
      exact ⟨i, by omega, h1, h2⟩
    · exact ⟨n, by omega, by omega, hn⟩

/-! ## The chunk search (lines 94-106) -/

theorem seq_search_loop_eq (query rev_query : String) (sequences : List Fasta) (stop : Nat) :
    ∀ fuel fasta_it present, fasta_it ≤ stop → stop ≤ sequences.length →
      stop - fasta_it < fuel →
      seq_search_loop query rev_query sequences stop fuel fasta_it present
        = some (present ++ (((sequences.drop fasta_it).take (stop - fasta_it)).filter
            (fun fasta => fasta.hasSeq query || fasta.hasSeq rev_query)).map Fasta.get_name) := by
  intro fuel
  induction fuel with
  | zero => intro fasta_it present _ _ h; omega
  | succ fuel ih =>
    intro fasta_it present h1 h2 h3
    rw [seq_search_loop]
    by_cases heq : fasta_it = stop
    · subst heq
      simp
    · have hlt : fasta_it < sequences.length := by omega
      have hsub : stop - fasta_it = (stop - (fasta_it + 1)) + 1 := by omega
      rw [if_neg heq, List.getElem?_eq_getElem hlt]
      simp only []
      rw [List.drop_eq_getElem_cons hlt, hsub, List.take_succ_cons, List.filter_cons]
      by_cases hc : (sequences[fasta_it].hasSeq query || sequences[fasta_it].hasSeq rev_query) = true
      · rw [if_pos hc, if_pos hc, ih (fasta_it + 1) _ (by omega) h2 (by omega)]
        simp
      · rw [if_neg hc, if_neg hc, ih (fasta_it + 1) _ (by omega) h2 (by omega)]

theorem seq_search_eq_ref (query : String) (sequences : List Fasta) (start stop : Nat)
    (h1 : start ≤ stop) (h2 : stop ≤ sequences.length) :
    seq_search query sequences start stop = some (seq_search_ref query sequences start stop) := by
  simp only [seq_search]
  rw [seq_search_loop_eq query (rev_comp query) sequences stop _ start [] h1 h2 (by omega)]
  rfl

/-- The names found in a slice, paired with the indices of the matching sequences. -/
theorem slice_index_view (query : String) (sequences : List Fasta) :
    ∀ n start, start + n ≤ sequences.length →
      List.Forall₂ (fun i name => ∃ fasta, sequences[i]? = some fasta ∧ fasta.get_name = name)
        ((List.range' start n).filter
          (fun i => match sequences[i]? with
            | some fasta => contains_either query fasta
            | none => false))
        ((((sequences.drop start).take n).filter (contains_either query)).map
          Fasta.get_name) := by
  intro n
  induction n with
  | zero => intro start _; simp
  | succ n ih =>
    intro start h
    have hlt : start < sequences.length := by omega
    rw [List.range'_succ, List.drop_eq_getElem_cons hlt, List.take_succ_cons, List.filter_cons,
      List.filter_cons]
    simp only [List.getElem?_eq_getElem hlt]
    by_cases hc : contains_either query sequences[start] = true
    · rw [if_pos hc, if_pos hc, List.map_cons]
      exact List.Forall₂.cons ⟨_, List.getElem?_eq_getElem hlt, rfl⟩ (ih (start + 1) (by omega))
    · rw [if_neg hc, if_neg hc]
      exact ih (start + 1) (by omega)

/-- Claim C3 (`seq_search` equals its reference definition): for `start ≤ end ≤ size` the call
returns a result, the result is the filter-then-map of the slice `[start, end)`, and it lists,
in ascending index order, the names of exactly those indices of the slice whose sequence
contains the query or its reverse complement. -/
theorem seq_search_refines (query : String) (sequences : List Fasta) (start stop : Nat)
    (h1 : start ≤ stop) (h2 : stop ≤ sequences.length) :
    seq_search query sequences start stop = some (seq_search_ref query sequences start stop)
      ∧ ∃ idxs : List Nat, idxs.Pairwise (fun i j => i < j)
        ∧ (∀ i, i ∈ idxs ↔ start ≤ i ∧ i < stop ∧ ∃ fasta, sequences[i]? = some fasta
            ∧ (fasta.hasSeq query = true ∨ fasta.hasSeq (rev_comp query) = true))
        ∧ List.Forall₂
            (fun i name => ∃ fasta, sequences[i]? = some fasta ∧ fasta.get_name = name)
            idxs (seq_search_ref query sequences start stop) := by
  refine ⟨seq_search_eq_ref query sequences start stop h1 h2, _, ?_, ?_,
    slice_index_view query sequences (stop - start) start (by omega)⟩
  · exact List.Pairwise.sublist (List.filter_sublist _) (List.pairwise_lt_range' start _)
  · intro i
    rw [List.mem_filter, List.mem_range'_1]
    constructor
    · rintro ⟨⟨h3, h4⟩, h5⟩
      refine ⟨h3, by omega, ?_⟩
      cases hget : sequences[i]? with
      | none => rw [hget] at h5; simp at h5
      | some fasta =>
        rw [hget] at h5
        refine ⟨fasta, rfl, ?_⟩
        simpa [contains_either] using h5
    · rintro ⟨h3, h4, fasta, hget, h5⟩
      refine ⟨⟨h3, by omega⟩, ?_⟩
      rw [hget]
      simpa [contains_either] using h5

/-- Witness of C3: the query `AAAA` over both example sequences. -/
theorem seq_search_refines_witness :
    0 ≤ 2 ∧ 2 ≤ example_sequences.length
      ∧ seq_search "AAAA" example_sequences 0 2
          = some (seq_search_ref "AAAA" example_sequences 0 2)
      ∧ ∃ idxs : List Nat, idxs.Pairwise (fun i j => i < j)
        ∧ (∀ i, i ∈ idxs ↔ 0 ≤ i ∧ i < 2 ∧ ∃ fasta, example_sequences[i]? = some fasta
            ∧ (fasta.hasSeq "AAAA" = true ∨ fasta.hasSeq (rev_comp "AAAA") = true))
        ∧ List.Forall₂
            (fun i name => ∃ fasta, example_sequences[i]? = some fasta ∧ fasta.get_name = name)
            idxs (seq_search_ref "AAAA" example_sequences 0 2) :=
  ⟨by decide, by decide, seq_search_refines "AAAA" example_sequences 0 2 (by decide) (by decide)⟩

/-! ## Futures, the launch loop and the collecting loop (lines 59-77) -/

theorem complete_value (sequences : List Fasta) (fut : Future) :
    (fut.complete sequences).value sequences = fut.value sequences := by
  unfold Future.complete
  cases fut.shared <;> rfl

theorem complete_consistent (sequences : List Fasta) (fut : Future)
    (h : fut.consistent sequences) : (fut.complete sequences).consistent sequences := by
  unfold Future.consistent at h ⊢
  rw [complete_value]
  unfold Future.complete
  rcases h with h | h
  · right; rw [h]; rfl
  · right; rw [h]; exact h

theorem get_eq_value (sequences : List Fasta) (fut : Future) (h : fut.consistent sequences) :
    fut.get sequences = fut.value sequences := by
  unfold Future.get Future.complete
  rcases h with h | h
  · rw [h]; rfl
  · simp only [h]

theorem complete_delivers (sequences : List Fasta) (fut : Future) (part : List String)
    (h : delivers sequences fut part) : delivers sequences (fut.complete sequences) part :=
  ⟨complete_consistent sequences fut h.1, by rw [complete_value]; exact h.2⟩

theorem run_tasks_delivers (sequences : List Fasta) (picks : List Nat) :
    ∀ (queue : List Future) (parts : List (List String)) (pos : Nat),
      List.Forall₂ (delivers sequences) queue parts →
      List.Forall₂ (delivers sequences) (run_tasks sequences picks pos queue) parts := by
  intro queue
  induction queue with
  | nil => intro parts pos h; cases h; exact List.Forall₂.nil
  | cons fut rest ih =>
    intro parts pos h
    cases h with
    | cons h1 h2 =>
      rw [run_tasks]
      refine List.Forall₂.cons ?_ (ih _ _ h2)
      split_ifs
      · exact complete_delivers sequences fut _ h1
      · exact h1

theorem drain_loop_eq (sequences : List Fasta) :
    ∀ (fuel : Nat) (st : State) (present : List String) (parts : List (List String)),
      List.Forall₂ (delivers sequences) st.map_threads parts → st.map_threads.length ≤ fuel →
      ∃ sched, drain_loop sequences fuel st present
        = .ok ({ st with map_threads := [], sched := sched }, present ++ parts.flatten) := by
  intro fuel
  induction fuel with
  | zero =>
    intro st present parts h hlen
    obtain ⟨out, queue, launched, sched⟩ := st
    have hq : queue = [] := List.length_eq_zero.mp (by simpa using hlen)
    subst hq
    cases h
    exact ⟨sched, by simp [drain_loop]⟩
  | succ fuel ih =>
    intro st present parts h hlen
    obtain ⟨out, queue, launched, sched⟩ := st
    cases h with
    | nil => exact ⟨sched, by simp [drain_loop]⟩
    | @cons front part rest parts h1 h2 =>
      have hfront : delivers sequences
          (if 0 ∈ sched.headD [] then front.complete sequences else front) part := by
        split_ifs
        · exact complete_delivers sequences front _ h1
        · exact h1
      have hrest := run_tasks_delivers sequences (sched.headD []) rest parts 1 h2
      have hget := get_eq_value sequences _ hfront.1
      rw [hfront.2] at hget
      have hlen2 : (run_tasks sequences (sched.headD []) 1 rest).length ≤ fuel := by
        have := List.Forall₂.length_eq hrest
        have := List.Forall₂.length_eq h2
        simp only [List.length_cons] at hlen
        omega
      obtain ⟨sched2, h3⟩ := ih
        { pres_ofs := out, map_threads := run_tasks sequences (sched.headD []) 1 rest,
          launched := launched, sched := sched.tail }
        (present ++ part) parts hrest hlen2
      refine ⟨sched2, ?_⟩
      simp only [drain_loop, hget, h3, List.flatten_cons, List.append_assoc]

theorem launch_loop_eq (unitig : String) (f : Nat → Nat) (n : Nat) :
    ∀ (idxs : List Nat) (st : State), (∀ i ∈ idxs, i < n) →
      launch_loop unitig ((List.range (n + 1)).map f) idxs st
        = .ok { st with
            map_threads := st.map_threads ++ idxs.map (fun i =>
              { query := unitig, start := f i, stop := f (i + 1), shared := .running }),
            launched := st.launched + idxs.length } := by
  intro idxs
  induction idxs with
  | nil => intro st _; simp [launch_loop]
  | cons i rest ih =>
    intro st h
    have hi : i < n := h i (List.mem_cons_self _ _)
    rw [launch_loop, start_points_get f n i (by omega), start_points_get f n (i + 1) (by omega)]
    simp only []
    rw [ih _ (fun j hj => h j (List.mem_cons_of_mem _ hj))]
    simp only [List.map_cons, List.append_assoc, List.singleton_append, List.length_cons]
    congr 2
    omega

/-! ## The counting loops of the program against the loops without wrap-around -/

theorem partition_loop_u32_eq (N T : Nat) (hT : T < 2 ^ 32) :
    ∀ (fuel k : Nat) (sp : List Nat) (iterations : Nat), k ≤ T → T - k < fuel →
      partition_loop_u32 T (N / T) (N % T) fuel k (start_point N T k % 2 ^ 64) sp iterations
        = .ok (iterations + (T - k), start_point N T T % 2 ^ 64,
            sp ++ (List.range' k (T - k)).map (fun i => start_point N T i % 2 ^ 64)) := by
  intro fuel
  induction fuel with
  | zero => intro k sp iterations _ h; omega
  | succ fuel ih =>
    intro k sp iterations hk hfuel
    rw [partition_loop_u32]
    by_cases hlt : k < T
    · have hwrap : (k + 1) % 2 ^ 32 = k + 1 := Nat.mod_eq_of_lt (by omega)
      have hnext : (if k < N % T
          then (start_point N T k % 2 ^ 64 + (N / T + 1) % 2 ^ 64) % 2 ^ 64
          else (start_point N T k % 2 ^ 64 + N / T) % 2 ^ 64)
            = start_point N T (k + 1) % 2 ^ 64 := by
        rw [start_point_succ]
        split_ifs <;> omega
      have hsub : T - k = (T - (k + 1)) + 1 := by omega
      rw [if_pos hlt]
      simp only []
      rw [hnext, hwrap, ih (k + 1) _ _ (by omega) (by omega), hsub, List.range'_succ]
      simp only [List.map_cons, List.append_assoc, List.singleton_append]
      congr 2
      omega
    · have hk2 : k = T := by omega
      subst hk2
      rw [if_neg hlt]
      simp

theorem make_start_points_u32_eq (N T : Nat) (hT1 : 1 ≤ T) (hT2 : T < 2 ^ 32) (fuel : Nat)
    (hfuel : T < fuel) :
    make_start_points_u32 fuel N T
      = .ok (T, (List.range (T + 1)).map (fun i => start_point N T i % 2 ^ 64)) := by
  have h0 : T ≠ 0 := by omega
  have hbig : num_big_threads_u32 N T = N % T := by
    have := Nat.mod_lt N (show T > 0 by omega)
    exact Nat.mod_eq_of_lt (by omega)
  have hloop := partition_loop_u32_eq N T hT2 fuel 0 [] 0 (Nat.zero_le _) (by omega)
  rw [start_point_zero, Nat.zero_mod] at hloop
  simp only [make_start_points_u32, h0, if_false, hbig, hloop]
  simp only [Nat.zero_add, Nat.sub_zero, List.nil_append]
  rw [List.range_succ, List.map_append, List.range_eq_range']
  rfl

theorem partition_loop_u32_diverges (T q r : Nat) (hT : 2 ^ 32 ≤ T) :
    ∀ (fuel k start : Nat) (sp : List Nat) (iterations : Nat), k < 2 ^ 32 →
      partition_loop_u32 T q r fuel k start sp iterations = .error .fuel_exhausted := by
  intro fuel
  induction fuel with
  | zero => intro _ _ _ _ _; rfl
  | succ fuel ih =>
    intro k start sp iterations hk
    rw [partition_loop_u32, if_pos (by omega)]
    exact ih _ _ _ _ (Nat.mod_lt _ (by omega))

theorem launch_loop_u32_eq (unitig : String) (sp : List Nat) (T : Nat) (hT : T < 2 ^ 32) :
    ∀ (fuel k : Nat) (st : State) (iterations : Nat), k ≤ T → T - k < fuel →
      launch_loop_u32 unitig sp T fuel k st iterations
        = (launch_loop unitig sp (List.range' k (T - k)) st).map
            (fun st1 => (iterations + (T - k), st1)) := by
  intro fuel
  induction fuel with
  | zero => intro k st iterations _ h; omega
  | succ fuel ih =>
    intro k st iterations hk hfuel
    rw [launch_loop_u32]
    by_cases hlt : k < T
    · have hwrap : (k + 1) % 2 ^ 32 = k + 1 := Nat.mod_eq_of_lt (by omega)
      have hsub : T - k = (T - (k + 1)) + 1 := by omega
      rw [if_pos hlt, hwrap, hsub, List.range'_succ, launch_loop]
      cases h1 : sp[k]? with
      | none => rfl
      | some start =>
        cases h2 : sp[k + 1]? with
        | none => rfl
        | some stop =>
          simp only []
          rw [ih (k + 1) _ _ (by omega) (by omega)]
          congr 1
          funext st1
          congr 1
          omega
    · have hk2 : k = T := by omega
      subst hk2
      rw [if_neg hlt]
      simp [launch_loop, Except.map]

theorem launch_loop_u32_diverges (unitig : String) (sp : List Nat) (T : Nat)
    (hT : 2 ^ 32 ≤ T) :
    ∀ (fuel k : Nat) (st : State) (iterations : Nat) (res : Nat × State), k < 2 ^ 32 →
      launch_loop_u32 unitig sp T fuel k st iterations ≠ .ok res := by
  intro fuel
  induction fuel with
  | zero => intro _ _ _ _ _ h; cases h
  | succ fuel ih =>
    intro k st iterations res hk
    rw [launch_loop_u32, if_pos (by omega)]
    cases h1 : sp[k]? with
    | none => intro h; cases h
    | some start =>
      cases h2 : sp[(k + 1) % 2 ^ 32]? with
      | none => intro h; cases h
      | some stop => exact ih _ _ _ _ (Nat.mod_lt _ (by omega))

/-- For `num_threads < 2 ^ 32` and a size that fits `size_t`, the partition loop of the program
ends after `num_threads` iterations with the closed form of the partition. -/
theorem make_start_points_u32_closed (N T fuel : Nat) (hT1 : 1 ≤ T) (hT2 : T < 2 ^ 32)
    (hN : N < 2 ^ 64) (hfuel : T < fuel) :
    make_start_points_u32 fuel N T = .ok (T, (List.range (T + 1)).map (start_point N T)) := by
  rw [make_start_points_u32_eq N T hT1 hT2 fuel hfuel]
  congr 2
  refine List.map_congr_left ?_
  intro i hi
  have hi : i < T + 1 := List.mem_range.mp hi
  have := start_point_le_size N T i hT1 (by omega)
  exact Nat.mod_eq_of_lt (by omega)

/-- For `num_threads ≥ 2 ^ 32` the partition loop of the program never ends. -/
theorem make_start_points_u32_diverges (N T fuel : Nat) (hT : 2 ^ 32 ≤ T) :
    make_start_points_u32 fuel N T = .error .fuel_exhausted := by
  have h0 : T ≠ 0 := by omega
  simp only [make_start_points_u32, h0, if_false,
    partition_loop_u32_diverges T _ _ hT fuel 0 0 [] 0 (by omega)]

theorem partition_loop_u32_exhausts (T q r : Nat) (hT : T < 2 ^ 32) :
    ∀ (fuel k start : Nat) (sp : List Nat) (iterations : Nat), k ≤ T → fuel ≤ T - k →
      partition_loop_u32 T q r fuel k start sp iterations = .error .fuel_exhausted := by
  intro fuel
  induction fuel with
  | zero => intro _ _ _ _ _ _; rfl
  | succ fuel ih =>
    intro k start sp iterations hk hfuel
    have hwrap : (k + 1) % 2 ^ 32 = k + 1 := Nat.mod_eq_of_lt (by omega)
    rw [partition_loop_u32, if_pos (by omega)]
    simp only []
    rw [hwrap]
    exact ih _ _ _ _ (by omega) (by omega)

/-- When the partition loop of the program ends, within the bound on its iterations, then
`1 ≤ num_threads < 2 ^ 32` and the bound is above `num_threads`. -/
theorem make_start_points_u32_ok (fuel N T iterations : Nat) (sp : List Nat)
    (h : make_start_points_u32 fuel N T = .ok (iterations, sp)) :
    1 ≤ T ∧ T < 2 ^ 32 ∧ T < fuel := by
  have h1 : 1 ≤ T := by
    by_contra hc
    have h0 : T = 0 := by omega
    subst h0
    simp [make_start_points_u32] at h
  have h2 : T < 2 ^ 32 := by
    by_contra hc
    rw [make_start_points_u32_diverges N T fuel (by omega)] at h
    cases h
  refine ⟨h1, h2, ?_⟩
  by_contra hc
  have h0 : T ≠ 0 := by omega
  simp only [make_start_points_u32, h0, if_false,
    partition_loop_u32_exhausts T _ _ h2 fuel 0 0 [] 0 (Nat.zero_le _) (by omega)] at h
  cases h

/-- For `num_threads < 2 ^ 32` the launch loop of the program ends after `num_threads`
iterations; it has pushed one running future for each range. -/
theorem launch_loop_u32_closed (unitig : String) (f : Nat → Nat) (T fuel : Nat)
    (hT2 : T < 2 ^ 32) (hfuel : T < fuel) (st : State) :
    launch_loop_u32 unitig ((List.range (T + 1)).map f) T fuel 0 st 0
      = .ok (T, { st with
          map_threads := st.map_threads ++ (List.range T).map (fun i =>
            { query := unitig, start := f i, stop := f (i + 1), shared := .running }),
          launched := st.launched + T }) := by
  have hnat := launch_loop_eq unitig f T (List.range T) st (fun i hi => List.mem_range.mp hi)
  have hu32 := launch_loop_u32_eq unitig ((List.range (T + 1)).map f) T hT2
    fuel 0 st 0 (Nat.zero_le _) (by omega)
  rw [Nat.sub_zero, ← List.range_eq_range', hnat, Nat.zero_add, List.length_range] at hu32
  exact hu32

/-! ## Claims about the partition -/

/-- Claim C1, as stated, fails: with seven sequences and `2 ^ 32` threads the partition loop
has not ended after any number of iterations (its 32-bit counter never reaches `num_threads`),
so no vector `start_points` is produced. -/
theorem partition_coverage_fails :
    1 ≤ 2 ^ 32
      ∧ (∀ fuel, make_start_points_u32 fuel 7 (2 ^ 32) = .error .fuel_exhausted)
      ∧ ∀ fuel iterations sp, make_start_points_u32 fuel 7 (2 ^ 32) ≠ .ok (iterations, sp) := by
  refine ⟨by decide, fun fuel => make_start_points_u32_diverges 7 (2 ^ 32) fuel (Nat.le_refl _),
    ?_⟩
  intro fuel iterations sp h
  rw [make_start_points_u32_diverges 7 (2 ^ 32) fuel (Nat.le_refl _)] at h
  cases h

/-- Claim C1 (partition coverage), amended: for every number of sequences `N < 2 ^ 64` and
every `1 ≤ T < 2 ^ 32` the partition loop ends after `T` iterations, for every bound above `T`
on its iterations. It yields `T + 1` start points, the first is `0`, the last is `N`, consecutive
entries do not decrease, a later range starts where an earlier one has ended or after it, the
ranges cover exactly the indices below `N`, no index lies in two ranges, and some range is empty
when `N < T`. -/
theorem partition_coverage (N T fuel : Nat) (hT : 1 ≤ T) (hT2 : T < 2 ^ 32) (hN : N < 2 ^ 64)
    (hfuel : T < fuel) :
    ∃ sp : List Nat, make_start_points_u32 fuel N T = .ok (T, sp) ∧ sp.length = T + 1
      ∧ sp[0]? = some 0 ∧ sp[T]? = some N
      ∧ (∀ i, i < T → ∃ a b, sp[i]? = some a ∧ sp[i + 1]? = some b ∧ a ≤ b)
      ∧ (∀ i j, i < j → j < T → ∃ b c, sp[i + 1]? = some b ∧ sp[j]? = some c ∧ b ≤ c)
      ∧ (∀ x, x < N ↔
          ∃ i a b, i < T ∧ sp[i]? = some a ∧ sp[i + 1]? = some b ∧ a ≤ x ∧ x < b)
      ∧ (∀ x i j a b c d, sp[i]? = some a → sp[i + 1]? = some b → sp[j]? = some c →
          sp[j + 1]? = some d → a ≤ x → x < b → c ≤ x → x < d → i = j)
      ∧ (N < T → ∃ i a, i < T ∧ sp[i]? = some a ∧ sp[i + 1]? = some a) := by
  refine ⟨_, make_start_points_u32_closed N T fuel hT hT2 hN hfuel, by simp,
    ?_, ?_, ?_, ?_, ?_, ?_, ?_⟩
  · rw [start_points_get _ T 0 (by omega), start_point_zero]
  · rw [start_points_get _ T T (by omega), start_point_last N T hT]
  · intro i hi
    exact ⟨_, _, start_points_get _ T i (by omega), start_points_get _ T (i + 1) (by omega),
      start_point_mono N T (by omega)⟩
  · intro i j hij hj
    exact ⟨_, _, start_points_get _ T (i + 1) (by omega), start_points_get _ T j (by omega),
      start_point_mono N T (by omega)⟩
  · intro x
    constructor
    · intro hx
      obtain ⟨i, hi, h1, h2⟩ := exists_step (start_point N T) x T
        (by rw [start_point_zero]; omega) (by rw [start_point_last N T hT]; exact hx)
      exact ⟨i, _, _, hi, start_points_get _ T i (by omega),
        start_points_get _ T (i + 1) (by omega), h1, h2⟩
    · rintro ⟨i, a, b, hi, -, hb, -, hxb⟩
      obtain ⟨hi1, rfl⟩ := start_points_get_some _ T (i + 1) b hb
      have := start_point_le_size N T (i + 1) hT hi1
      omega
  · intro x i j a b c d ha hb hc hd hax hxb hcx hxd
    obtain ⟨-, rfl⟩ := start_points_get_some _ T i a ha
    obtain ⟨-, rfl⟩ := start_points_get_some _ T (i + 1) b hb
    obtain ⟨-, rfl⟩ := start_points_get_some _ T j c hc
    obtain ⟨-, rfl⟩ := start_points_get_some _ T (j + 1) d hd
    rcases Nat.lt_trichotomy i j with h | h | h
    · have := start_point_mono N T (show i + 1 ≤ j by omega)
      omega
    · exact h
    · have := start_point_mono N T (show j + 1 ≤ i by omega)
      omega
  · intro hlt
    refine ⟨N, start_point N T N, hlt, start_points_get _ T N (by omega), ?_⟩
    rw [start_points_get _ T (N + 1) (by omega)]
    simp only [start_point, Nat.div_eq_of_lt hlt, Nat.mod_eq_of_lt hlt, Nat.mul_zero]
    congr 1
    omega

/-- Witness of the amended C1 at seven sequences and three threads. -/
theorem partition_coverage_witness :
    1 ≤ 3 ∧ 3 < 2 ^ 32 ∧ 7 < 2 ^ 64 ∧ 3 < 4
      ∧ ∃ sp : List Nat, make_start_points_u32 4 7 3 = .ok (3, sp) ∧ sp.length = 3 + 1
      ∧ sp[0]? = some 0 ∧ sp[3]? = some 7
      ∧ (∀ i, i < 3 → ∃ a b, sp[i]? = some a ∧ sp[i + 1]? = some b ∧ a ≤ b)
      ∧ (∀ i j, i < j → j < 3 → ∃ b c, sp[i + 1]? = some b ∧ sp[j]? = some c ∧ b ≤ c)
      ∧ (∀ x, x < 7 ↔
          ∃ i a b, i < 3 ∧ sp[i]? = some a ∧ sp[i + 1]? = some b ∧ a ≤ x ∧ x < b)
      ∧ (∀ x i j a b c d, sp[i]? = some a → sp[i + 1]? = some b → sp[j]? = some c →
          sp[j + 1]? = some d → a ≤ x → x < b → c ≤ x → x < d → i = j)
      ∧ (7 < 3 → ∃ i a, i < 3 ∧ sp[i]? = some a ∧ sp[i + 1]? = some a) :=
  ⟨by decide, by decide, by decide, by decide,
    partition_coverage 7 3 4 (by decide) (by decide) (by decide) (by decide)⟩

/-- Claim C2, as stated, fails: with ten sequences and `2 ^ 32` threads the claim gives
`start_points[1] = 1 * (10 div 2 ^ 32) + min 1 (10 mod 2 ^ 32) = 1`, but the partition loop never
ends, whatever the bound on its iterations, and builds no partition. -/
theorem partition_balance_fails :
    1 ≤ 2 ^ 32 ∧ 1 * (10 / 2 ^ 32) + min 1 (10 % 2 ^ 32) = 1
      ∧ ∀ fuel, ¬ ∃ iterations sp, make_start_points_u32 fuel 10 (2 ^ 32) = .ok (iterations, sp)
          ∧ sp[1]? = some 1 := by
  refine ⟨by decide, by decide, ?_⟩
  rintro fuel ⟨iterations, sp, h, -⟩
  rw [make_start_points_u32_diverges 10 (2 ^ 32) fuel (Nat.le_refl _)] at h
  cases h

/-- Claim C2 (partition balance, remainder in front), amended: for `N < 2 ^ 64` and
`1 ≤ T < 2 ^ 32` the partition loop ends, for every bound above `T` on its iterations, and with
`q = N div T` and `r = N mod T` entry `i` of `start_points` is `i * q + min i r` for every
`i ≤ T`, range `i` has `q + 1` items when `i < r` and `q` items when `r ≤ i < T`, and the sizes
of two ranges differ by at most one. -/
theorem partition_balance (N T fuel : Nat) (hT : 1 ≤ T) (hT2 : T < 2 ^ 32) (hN : N < 2 ^ 64)
    (hfuel : T < fuel) :
    ∃ sp : List Nat, make_start_points_u32 fuel N T = .ok (T, sp)
      ∧ (∀ i, i ≤ T → sp[i]? = some (i * (N / T) + min i (N % T)))
      ∧ (∀ i, i < N % T → ∃ a, sp[i]? = some a ∧ sp[i + 1]? = some (a + (N / T + 1)))
      ∧ (∀ i, N % T ≤ i → i < T → ∃ a, sp[i]? = some a ∧ sp[i + 1]? = some (a + N / T))
      ∧ (∀ i j a b c d, i < T → j < T → sp[i]? = some a → sp[i + 1]? = some b →
          sp[j]? = some c → sp[j + 1]? = some d → b - a ≤ (d - c) + 1) := by
  have hr : N % T < T := Nat.mod_lt _ (by omega)
  refine ⟨_, make_start_points_u32_closed N T fuel hT hT2 hN hfuel, ?_, ?_, ?_, ?_⟩
  · intro i hi
    exact start_points_get _ T i hi
  · intro i hi
    refine ⟨_, start_points_get _ T i (by omega), ?_⟩
    rw [start_points_get _ T (i + 1) (by omega), start_point_succ, if_pos hi]
  · intro i hri hi
    refine ⟨_, start_points_get _ T i (by omega), ?_⟩
    rw [start_points_get _ T (i + 1) (by omega), start_point_succ, if_neg (by omega)]
  · intro i j a b c d hi hj ha hb hc hd
    obtain ⟨-, rfl⟩ := start_points_get_some _ T i a ha
    obtain ⟨-, rfl⟩ := start_points_get_some _ T (i + 1) b hb
    obtain ⟨-, rfl⟩ := start_points_get_some _ T j c hc
    obtain ⟨-, rfl⟩ := start_points_get_some _ T (j + 1) d hd
    rw [start_point_succ N T i, start_point_succ N T j]
    split_ifs <;> omega

/-- Witness of the amended C2 at seven sequences and three threads. -/
theorem partition_balance_witness :
    1 ≤ 3 ∧ 3 < 2 ^ 32 ∧ 7 < 2 ^ 64 ∧ 3 < 4
      ∧ ∃ sp : List Nat, make_start_points_u32 4 7 3 = .ok (3, sp)
      ∧ (∀ i, i ≤ 3 → sp[i]? = some (i * (7 / 3) + min i (7 % 3)))
      ∧ (∀ i, i < 7 % 3 → ∃ a, sp[i]? = some a ∧ sp[i + 1]? = some (a + (7 / 3 + 1)))
      ∧ (∀ i, 7 % 3 ≤ i → i < 3 → ∃ a, sp[i]? = some a ∧ sp[i + 1]? = some (a + 7 / 3))
      ∧ (∀ i j a b c d, i < 3 → j < 3 → sp[i]? = some a → sp[i + 1]? = some b →
          sp[j]? = some c → sp[j + 1]? = some d → b - a ≤ (d - c) + 1) :=
  ⟨by decide, by decide, by decide, by decide,
    partition_balance 7 3 4 (by decide) (by decide) (by decide) (by decide)⟩

/-! ## Merging the ranges -/

theorem seq_search_ref_append (query : String) (sequences : List Fasta) (a b c : Nat)
    (hab : a ≤ b) (hbc : b ≤ c) :
    seq_search_ref query sequences a b ++ seq_search_ref query sequences b c
      = seq_search_ref query sequences a c := by
  have hsplit : c - a = (b - a) + (c - b) := by omega
  have hdrop : List.drop (b - a) (List.drop a sequences) = List.drop b sequences := by
    rw [List.drop_drop]
    congr 1
    omega
  simp only [seq_search_ref]
  rw [hsplit, List.take_add, hdrop, List.filter_append, List.map_append]

theorem flatten_ranges (query : String) (sequences : List Fasta) (f : Nat → Nat)
    (hf : ∀ i, f i ≤ f (i + 1)) :
    ∀ n, ((List.range n).map
        (fun i => seq_search_ref query sequences (f i) (f (i + 1)))).flatten
      = seq_search_ref query sequences (f 0) (f n) := by
  have hmono : ∀ n, f 0 ≤ f n := by
    intro n
    induction n with
    | zero => exact Nat.le_refl _
    | succ n ih => exact Nat.le_trans ih (hf n)
  intro n
  induction n with
  | zero => simp [seq_search_ref]
  | succ n ih =>
    rw [List.range_succ, List.map_append, List.flatten_append, ih]
    simp only [List.map_cons, List.map_nil, List.flatten_cons, List.flatten_nil,
      List.append_nil]
    exact seq_search_ref_append query sequences _ _ _ (hmono n) (hf n)

/-- The futures that the launch loop pushes for one query deliver the reference results of
their ranges. -/
theorem launched_deliver (query : String) (sequences : List Fasta) (T : Nat) (hT : 1 ≤ T) :
    List.Forall₂ (delivers sequences)
      ((List.range T).map (fun i =>
        ({ query := query, start := start_point sequences.length T i,
           stop := start_point sequences.length T (i + 1), shared := .running } : Future)))
      ((List.range T).map (fun i =>
        seq_search_ref query sequences (start_point sequences.length T i)
          (start_point sequences.length T (i + 1)))) := by
  rw [List.forall₂_map_left_iff, List.forall₂_map_right_iff, List.forall₂_same]
  intro i hi
  have hi : i < T := List.mem_range.mp hi
  exact ⟨Or.inl rfl, seq_search_eq_ref query sequences _ _
    (start_point_mono _ _ (by omega)) (start_point_le_size _ _ _ hT (by omega))⟩

/-- Lines 59-77 for one query, started with an empty queue, for `1 ≤ T < 2 ^ 32` and a bound
above `T` on the iterations of the launch loop: the queue is empty again and `present` is the
concatenation, in range order, of the reference results of the ranges. -/
theorem search_query_eq (sequences : List Fasta) (T fuel : Nat) (hT : 1 ≤ T) (hT2 : T < 2 ^ 32)
    (hfuel : T < fuel) (query : String) (st : State) (hq : st.map_threads = []) :
    ∃ sched, search_query sequences
        ((List.range (T + 1)).map (start_point sequences.length T)) T fuel st query
      = .ok ({ st with map_threads := [], launched := st.launched + T, sched := sched },
          ((List.range T).map (fun i =>
            seq_search_ref query sequences (start_point sequences.length T i)
              (start_point sequences.length T (i + 1)))).flatten) := by
  obtain ⟨out, queue, launched, sched⟩ := st
  simp only at hq
  subst hq
  have hlaunch := launch_loop_u32_closed query (start_point sequences.length T) T fuel hT2 hfuel
    { pres_ofs := out, map_threads := [], launched := launched, sched := sched }
  simp only [List.nil_append] at hlaunch
  obtain ⟨sched2, hdrain⟩ := drain_loop_eq sequences T
    { pres_ofs := out,
      map_threads := (List.range T).map (fun i =>
        ({ query := query, start := start_point sequences.length T i,
           stop := start_point sequences.length T (i + 1), shared := .running } : Future)),
      launched := launched + T, sched := sched }
    [] _ (launched_deliver query sequences T hT) (by simp)
  refine ⟨sched2, ?_⟩
  simp only [search_query, hlaunch, List.length_map, List.length_range, hdrain, List.nil_append]

theorem search_query_whole (sequences : List Fasta) (T fuel : Nat) (hT : 1 ≤ T)
    (hT2 : T < 2 ^ 32) (hfuel : T < fuel) (query : String) (st : State)
    (hq : st.map_threads = []) :
    ∃ sched, search_query sequences
        ((List.range (T + 1)).map (start_point sequences.length T)) T fuel st query
      = .ok ({ st with map_threads := [], launched := st.launched + T, sched := sched },
          seq_search_ref query sequences 0 sequences.length) := by
  obtain ⟨sched, h⟩ := search_query_eq sequences T fuel hT hT2 hfuel query st hq
  refine ⟨sched, ?_⟩
  rw [h, flatten_ranges query sequences (start_point sequences.length T)
    (fun i => start_point_mono _ _ (by omega)) T, start_point_zero,
    start_point_last _ _ hT]

/-- For `num_threads ≥ 2 ^ 32` the launch loop never ends, so lines 59-77 collect nothing. -/
theorem search_query_diverges (sequences : List Fasta) (sp : List Nat) (T fuel : Nat)
    (hT : 2 ^ 32 ≤ T) (st : State) (query : String) (res : State × List String) :
    search_query sequences sp T fuel st query ≠ .ok res := by
  unfold search_query
  cases h : launch_loop_u32 query sp T fuel 0 st 0 with
  | error e => intro h2; cases h2
  | ok r => exact absurd h (launch_loop_u32_diverges query sp T hT fuel 0 st 0 r (by omega))

/-! ## The output (lines 79-88) -/

theorem foldl_tokens (present : List String) :
    ∀ out : String, present.foldl (fun out pres => out ++ " " ++ pres ++ ":1") out
      = out ++ line_tokens present := by
  induction present with
  | nil => intro out; simp [line_tokens]
  | cons name rest ih =>
    intro out
    rw [List.foldl_cons, ih, line_tokens]
    simp only [String.append_assoc]

theorem print_results_eq (pres_ofs unitig : String) (present : List String) :
    print_results pres_ofs unitig present = pres_ofs ++ query_output unitig present := by
  unfold print_results query_output
  cases present with
  | nil => simp
  | cons name rest =>
    have hpos : (name :: rest).length > 0 := by simp
    rw [if_pos hpos, if_neg (List.cons_ne_nil _ _)]
    simp only [foldl_tokens]
    simp only [format_line, String.append_assoc]

/-- The body of the loop over the queries, started with an empty queue: it appends the output
of the query for the matches over all sequences and leaves the queue empty. -/
theorem query_step_eq (sequences : List Fasta) (T fuel : Nat) (hT : 1 ≤ T) (hT2 : T < 2 ^ 32)
    (hfuel : T < fuel) (query : String) (st : State) (hq : st.map_threads = []) :
    ∃ sched, query_step sequences
        ((List.range (T + 1)).map (start_point sequences.length T)) T fuel st query
      = .ok { pres_ofs := st.pres_ofs
                ++ query_output query (seq_search_ref query sequences 0 sequences.length),
              map_threads := [], launched := st.launched + T, sched := sched } := by
  obtain ⟨sched, h⟩ := search_query_whole sequences T fuel hT hT2 hfuel query st hq
  refine ⟨sched, ?_⟩
  simp only [query_step, h, print_results_eq]

/-! ## The loop over the queries (lines 57-89) -/

theorem query_loop_eq (sequences : List Fasta) (T fuel : Nat) (hT : 1 ≤ T) (hT2 : T < 2 ^ 32)
    (hfuel : T < fuel) :
    ∀ (query_list : List String) (st : State), st.map_threads = [] →
      ∃ sched, query_loop sequences
          ((List.range (T + 1)).map (start_point sequences.length T)) T fuel query_list st
        = .ok { pres_ofs := st.pres_ofs ++ run_output sequences query_list,
                map_threads := [], launched := st.launched + T * query_list.length,
                sched := sched } := by
  intro query_list
  induction query_list with
  | nil =>
    intro st hq
    obtain ⟨out, queue, launched, sched⟩ := st
    simp only at hq
    subst hq
    exact ⟨sched, by simp [query_loop, run_output]⟩
  | cons query rest ih =>
    intro st hq
    obtain ⟨sched1, h1⟩ := query_step_eq sequences T fuel hT hT2 hfuel query st hq
    obtain ⟨sched2, h2⟩ := ih
      { pres_ofs := st.pres_ofs
          ++ query_output query (seq_search_ref query sequences 0 sequences.length),
        map_threads := [], launched := st.launched + T, sched := sched1 } rfl
    refine ⟨sched2, ?_⟩
    simp only [query_loop, h1, h2, run_output, all_matches, String.append_assoc,
      List.length_cons]
    congr 2
    rw [Nat.mul_succ]
    omega

theorem assert_passes (ndebug : Bool) (T : Nat) (hT : 1 ≤ T) :
    ¬ (ndebug = false ∧ ¬ T ≥ 1) := by
  rintro ⟨-, h⟩
  exact h hT

/-- A run with `1 ≤ T < 2 ^ 32`, a number of sequences that fits `size_t` and a bound above `T`
on the iterations of the counting loops reaches the end, in either build. -/
theorem call_strings_eq (ndebug : Bool) (fuel : Nat) (sequences : List Fasta)
    (query_list : List String) (T : Nat) (hT : 1 ≤ T) (hT2 : T < 2 ^ 32)
    (hN : sequences.length < 2 ^ 64) (hfuel : T < fuel) (sched : Schedule) :
    ∃ sched2, call_strings ndebug fuel sequences query_list T sched
      = .ok { pres_ofs := run_output sequences query_list, map_threads := [],
              launched := T * query_list.length, sched := sched2 } := by
  obtain ⟨sched2, h⟩ := query_loop_eq sequences T fuel hT hT2 hfuel query_list
    (State.init sched) rfl
  refine ⟨sched2, ?_⟩
  simp only [call_strings, if_neg (assert_passes ndebug T hT),
    make_start_points_u32_closed _ T fuel hT hT2 hN hfuel, h]
  simp only [State.init, String.empty_append, Nat.zero_add]

theorem output_eq (ndebug : Bool) (fuel : Nat) (sequences : List Fasta)
    (query_list : List String) (T : Nat) (hT : 1 ≤ T) (hT2 : T < 2 ^ 32)
    (hN : sequences.length < 2 ^ 64) (hfuel : T < fuel) (sched : Schedule) :
    output ndebug fuel sequences query_list T sched
      = some (run_output sequences query_list) := by
  obtain ⟨sched2, h⟩ := call_strings_eq ndebug fuel sequences query_list T hT hT2 hN hfuel sched
  simp only [output, h]

/-- A run with `num_threads ≥ 2 ^ 32` never leaves the partition loop, in either build: the
output file has been created and stays empty. -/
theorem call_strings_diverges (ndebug : Bool) (fuel : Nat) (sequences : List Fasta)
    (query_list : List String) (T : Nat) (hT : 2 ^ 32 ≤ T) (sched : Schedule) :
    call_strings ndebug fuel sequences query_list T sched
      = .error { failure := .fuel_exhausted, output_file := some "" } := by
  simp only [call_strings, if_neg (assert_passes ndebug T (by omega)),
    make_start_points_u32_diverges _ T fuel hT]
  rfl

theorem output_diverges (ndebug : Bool) (fuel : Nat) (sequences : List Fasta)
    (query_list : List String) (T : Nat) (hT : 2 ^ 32 ≤ T) (sched : Schedule) :
    output ndebug fuel sequences query_list T sched = none := by
  simp only [output, call_strings_diverges ndebug fuel sequences query_list T hT sched]

theorem run_output_append (sequences : List Fasta) (qs1 qs2 : List String) :
    run_output sequences (qs1 ++ qs2) = run_output sequences qs1 ++ run_output sequences qs2 := by
  induction qs1 with
  | nil => simp [run_output]
  | cons query rest ih =>
    rw [List.cons_append, run_output, run_output, ih, String.append_assoc]

theorem query_loop_append (sequences : List Fasta) (sp : List Nat) (T fuel : Nat) :
    ∀ (qs1 qs2 : List String) (st : State),
      query_loop sequences sp T fuel (qs1 ++ qs2) st
        = match query_loop sequences sp T fuel qs1 st with
          | .error e => .error e
          | .ok st1 => query_loop sequences sp T fuel qs2 st1 := by
  intro qs1
  induction qs1 with
  | nil => intro qs2 st; rfl
  | cons query rest ih =>
    intro qs2 st
    rw [List.cons_append, query_loop, query_loop]
    cases query_step sequences sp T fuel st query with
    | error e => rfl
    | ok st1 => exact ih qs2 st1

theorem query_loop_single (sequences : List Fasta) (sp : List Nat) (T fuel : Nat)
    (query : String) (st : State) :
    query_loop sequences sp T fuel [query] st = query_step sequences sp T fuel st query := by
  rw [query_loop]
  cases query_step sequences sp T fuel st query with
  | error e => rfl
  | ok st1 => rfl

/-- The run on a list of queries followed by one more query: the last query starts in the
state in which the run on the list ends, and there the queue is empty. -/
theorem call_strings_snoc (ndebug : Bool) (fuel : Nat) (sequences : List Fasta)
    (before : List String) (query : String) (T : Nat) (hT : 1 ≤ T) (hT2 : T < 2 ^ 32)
    (hN : sequences.length < 2 ^ 64) (hfuel : T < fuel) (sched : Schedule) :
    ∃ st0, call_strings ndebug fuel sequences before T sched = .ok st0 ∧ st0.map_threads = []
      ∧ call_strings ndebug fuel sequences (before ++ [query]) T sched
        = query_step sequences
            ((List.range (T + 1)).map (start_point sequences.length T)) T fuel st0 query := by
  obtain ⟨sched2, h⟩ := call_strings_eq ndebug fuel sequences before T hT hT2 hN hfuel sched
  refine ⟨_, h, rfl, ?_⟩
  simp only [call_strings, if_neg (assert_passes ndebug T hT),
    make_start_points_u32_closed _ T fuel hT hT2 hN hfuel] at h ⊢
  rw [query_loop_append, h]
  exact query_loop_single _ _ _ _ _ _

/-! ## The output as a concatenation of lines -/

theorem foldl_append_string (l : List String) :
    ∀ acc : String, l.foldl (fun r s => r ++ s) acc = acc ++ l.foldl (fun r s => r ++ s) "" := by
  induction l with
  | nil => intro acc; simp
  | cons a rest ih =>
    intro acc
    rw [List.foldl_cons, List.foldl_cons, ih (acc ++ a), ih ("" ++ a), String.empty_append,
      String.append_assoc]

theorem string_join_cons (a : String) (l : List String) :
    String.join (a :: l) = a ++ String.join l := by
  unfold String.join
  rw [List.foldl_cons, foldl_append_string l ("" ++ a), String.empty_append]

theorem run_output_eq_join (sequences : List Fasta) (query_list : List String) :
    run_output sequences query_list
      = String.join (query_list.map
          (fun query => query_output query (all_matches sequences query))) := by
  induction query_list with
  | nil => rfl
  | cons query rest ih => rw [run_output, List.map_cons, string_join_cons, ih]

theorem run_output_eq_lines (sequences : List Fasta) (query_list : List String) :
    run_output sequences query_list
      = String.join (query_list.filterMap (query_line sequences)) := by
  induction query_list with
  | nil => rfl
  | cons query rest ih =>
    rw [run_output, ih]
    by_cases h : all_matches sequences query = []
    · have hnone : query_line sequences query = none := by simp [query_line, h]
      rw [List.filterMap_cons_none hnone, query_output, if_pos h, String.empty_append]
    · have hsome : query_line sequences query
          = some (format_line query (all_matches sequences query)) := by
        simp [query_line, h]
      rw [List.filterMap_cons_some hsome, string_join_cons, query_output, if_neg h]

theorem seq_search_ref_sublist (query : String) (sequences : List Fasta) (start stop : Nat) :
    (seq_search_ref query sequences start stop).Sublist (sequences.map Fasta.get_name) := by
  unfold seq_search_ref
  refine List.Sublist.map _ ?_
  exact ((List.filter_sublist _).trans (List.take_sublist _ _)).trans (List.drop_sublist _ _)

/-! ## Independence of the order in which the workers finish -/

theorem launch_loop_u32_uniform (unitig : String) (sp : List Nat) (T : Nat) :
    ∀ (fuel k iterations : Nat),
      (∃ e, ∀ st : State, launch_loop_u32 unitig sp T fuel k st iterations = .error e)
      ∨ (∃ (i : Nat) (futs : List Future), (∀ fut ∈ futs, fut.shared = .running)
          ∧ ∀ st : State, launch_loop_u32 unitig sp T fuel k st iterations
              = .ok (i, { st with map_threads := st.map_threads ++ futs,
                                  launched := st.launched + futs.length })) := by
  intro fuel
  induction fuel with
  | zero => intro k iterations; exact Or.inl ⟨.fuel_exhausted, fun _ => rfl⟩
  | succ fuel ih =>
    intro k iterations
    by_cases hlt : k < T
    · cases h1 : sp[k]? with
      | none =>
        refine Or.inl ⟨.out_of_range, fun st => ?_⟩
        rw [launch_loop_u32, if_pos hlt, h1]
      | some start =>
        cases h2 : sp[(k + 1) % 2 ^ 32]? with
        | none =>
          refine Or.inl ⟨.out_of_range, fun st => ?_⟩
          rw [launch_loop_u32, if_pos hlt, h1, h2]
        | some stop =>
          rcases ih ((k + 1) % 2 ^ 32) (iterations + 1) with ⟨e, he⟩ | ⟨i, futs, hrun, hok⟩
          · refine Or.inl ⟨e, fun st => ?_⟩
            rw [launch_loop_u32, if_pos hlt, h1, h2]
            exact he _
          · refine Or.inr ⟨i, Future.mk unitig start stop .running :: futs, ?_, fun st => ?_⟩
            · intro fut hfut
              rcases List.mem_cons.mp hfut with h | h
              · rw [h]
              · exact hrun fut h
            · rw [launch_loop_u32, if_pos hlt, h1, h2]
              simp only []
              rw [hok]
              simp only [List.append_assoc, List.singleton_append, List.length_cons]
              congr 3
              omega
    · refine Or.inr ⟨iterations, [], fun _ h => absurd h (List.not_mem_nil _), fun st => ?_⟩
      rw [launch_loop_u32, if_neg hlt]
      simp

theorem run_tasks_consistent (sequences : List Fasta) (picks : List Nat) :
    ∀ (queue : List Future) (pos : Nat), (∀ fut ∈ queue, fut.consistent sequences) →
      ∀ fut ∈ run_tasks sequences picks pos queue, fut.consistent sequences := by
  intro queue
  induction queue with
  | nil => intro pos _ fut hfut; simp [run_tasks] at hfut
  | cons head rest ih =>
    intro pos h fut hfut
    rw [run_tasks] at hfut
    rcases List.mem_cons.mp hfut with heq | hmem
    · rw [heq]
      split_ifs
      · exact complete_consistent sequences head (h head (List.mem_cons_self _ _))
      · exact h head (List.mem_cons_self _ _)
    · exact ih (pos + 1) (fun f hf => h f (List.mem_cons_of_mem _ hf)) fut hmem

theorem run_tasks_length (sequences : List Fasta) (picks : List Nat) :
    ∀ (queue : List Future) (pos : Nat),
      (run_tasks sequences picks pos queue).length = queue.length := by
  intro queue
  induction queue with
  | nil => intro pos; rfl
  | cons head rest ih => intro pos; rw [run_tasks, List.length_cons, List.length_cons, ih]

theorem collect_values_run_tasks (sequences : List Fasta) (picks : List Nat) :
    ∀ (queue : List Future) (pos : Nat) (present : List String),
      collect_values sequences (run_tasks sequences picks pos queue) present
        = collect_values sequences queue present := by
  intro queue
  induction queue with
  | nil => intro pos present; rfl
  | cons head rest ih =>
    intro pos present
    have hval : (if pos ∈ picks then head.complete sequences else head).value sequences
        = head.value sequences := by
      split_ifs
      · exact complete_value sequences head
      · rfl
    rw [run_tasks, collect_values, collect_values, hval]
    cases head.value sequences with
    | none => rfl
    | some part => exact ih (pos + 1) (present ++ part)

/-- The collecting loop on a queue of consistent futures: its result is fixed by the values of
the tasks, taken in queue order, whatever the order in which they finish. -/
theorem drain_loop_collect (sequences : List Fasta) :
    ∀ (fuel : Nat) (st : State) (present : List String),
      (∀ fut ∈ st.map_threads, fut.consistent sequences) → st.map_threads.length ≤ fuel →
      ∃ sched, drain_loop sequences fuel st present
        = match collect_values sequences st.map_threads present with
          | none => .error .out_of_range
          | some all => .ok ({ st with map_threads := [], sched := sched }, all) := by
  intro fuel
  induction fuel with
  | zero =>
    intro st present _ hlen
    obtain ⟨out, queue, launched, sched⟩ := st
    have hq : queue = [] := List.length_eq_zero.mp (by simpa using hlen)
    subst hq
    exact ⟨sched, by simp [drain_loop, collect_values]⟩
  | succ fuel ih =>
    intro st present hcons hlen
    obtain ⟨out, queue, launched, sched⟩ := st
    cases queue with
    | nil => exact ⟨sched, by simp [drain_loop, collect_values]⟩
    | cons front rest =>
      have hfront : (if 0 ∈ sched.headD [] then front.complete sequences
          else front).consistent sequences := by
        split_ifs
        · exact complete_consistent sequences front (hcons front (List.mem_cons_self _ _))
        · exact hcons front (List.mem_cons_self _ _)
      have hval : (if 0 ∈ sched.headD [] then front.complete sequences
          else front).value sequences = front.value sequences := by
        split_ifs
        · exact complete_value sequences front
        · rfl
      have hget := get_eq_value sequences _ hfront
      rw [hval] at hget
      have hrest := run_tasks_consistent sequences (sched.headD []) rest 1
        (fun f hf => hcons f (List.mem_cons_of_mem _ hf))
      have hlen2 : (run_tasks sequences (sched.headD []) 1 rest).length ≤ fuel := by
        rw [run_tasks_length]
        simp only [List.length_cons] at hlen
        omega
      cases hv : front.value sequences with
      | none =>
        rw [hv] at hget
        exact ⟨sched, by simp only [drain_loop, hget, collect_values, hv]⟩
      | some part =>
        rw [hv] at hget
        obtain ⟨sched2, h3⟩ := ih
          { pres_ofs := out, map_threads := run_tasks sequences (sched.headD []) 1 rest,
            launched := launched, sched := sched.tail }
          (present ++ part) hrest hlen2
        refine ⟨sched2, ?_⟩
        simp only [drain_loop, hget, h3, collect_values, hv, collect_values_run_tasks]

/-- Lines 59-77 for one query, started with an empty queue: whether the lines fail, how, and
the list `present` that they collect do not depend on the state or on the order in which the
workers finish. -/
theorem search_query_uniform (sequences : List Fasta) (sp : List Nat) (T fuel : Nat)
    (query : String) :
    (∃ e, ∀ st : State, st.map_threads = [] →
        search_query sequences sp T fuel st query = .error e)
      ∨ (∃ (n : Nat) (present : List String), ∀ st : State, st.map_threads = [] →
          ∃ sched, search_query sequences sp T fuel st query
            = .ok ({ st with map_threads := [], launched := st.launched + n, sched := sched },
                present)) := by
  rcases launch_loop_u32_uniform query sp T fuel 0 0 with ⟨e, he⟩ | ⟨i, futs, hrun, hok⟩
  · refine Or.inl ⟨e, fun st _ => ?_⟩
    simp only [search_query, he]
  · cases hc : collect_values sequences futs [] with
    | none =>
      refine Or.inl ⟨.out_of_range, fun st hq => ?_⟩
      obtain ⟨out, queue, launched, sched⟩ := st
      simp only at hq
      subst hq
      obtain ⟨sched2, hdrain⟩ := drain_loop_collect sequences futs.length
        { pres_ofs := out, map_threads := futs, launched := launched + futs.length,
          sched := sched } []
        (fun fut hfut => Or.inl (hrun fut hfut)) (Nat.le_refl _)
      simp only [search_query, hok, List.nil_append, hdrain, hc]
    | some present =>
      refine Or.inr ⟨futs.length, present, fun st hq => ?_⟩
      obtain ⟨out, queue, launched, sched⟩ := st
      simp only at hq
      subst hq
      obtain ⟨sched2, hdrain⟩ := drain_loop_collect sequences futs.length
        { pres_ofs := out, map_threads := futs, launched := launched + futs.length,
          sched := sched } []
        (fun fut hfut => Or.inl (hrun fut hfut)) (Nat.le_refl _)
      refine ⟨sched2, ?_⟩
      simp only [search_query, hok, List.nil_append, hdrain, hc]

theorem query_loop_same_outcome (sequences : List Fasta) (sp : List Nat) (T fuel : Nat) :
    ∀ (query_list : List String) (a b : State), a.similar b → a.map_threads = [] →
      same_outcome (query_loop sequences sp T fuel query_list a)
        (query_loop sequences sp T fuel query_list b) := by
  intro query_list
  induction query_list with
  | nil => intro a b hsim _; exact hsim.1
  | cons query rest ih =>
    intro a b hsim hqa
    have hqb : b.map_threads = [] := by rw [← hsim.2.1]; exact hqa
    rcases search_query_uniform sequences sp T fuel query with ⟨e, he⟩ | ⟨n, present, hok⟩
    · simp only [query_loop, query_step, he a hqa, he b hqb, same_outcome]
      rw [hsim.1]
    · obtain ⟨sa, ha⟩ := hok a hqa
      obtain ⟨sb, hb⟩ := hok b hqb
      simp only [query_loop, query_step, ha, hb]
      refine ih _ _ ⟨?_, rfl, ?_⟩ rfl
      · simp only [hsim.1]
      · simp only [hsim.2.2]

/-- For at least one thread, the outcome of a run does not depend on the order in which the
workers finish, whatever the build, the bound on the iterations, the sequences and the
queries. -/
theorem call_strings_same_outcome (ndebug : Bool) (fuel : Nat) (sequences : List Fasta)
    (query_list : List String) (T : Nat) (hT : 1 ≤ T) (sched1 sched2 : Schedule) :
    same_outcome (call_strings ndebug fuel sequences query_list T sched1)
      (call_strings ndebug fuel sequences query_list T sched2) := by
  simp only [call_strings, if_neg (assert_passes ndebug T hT)]
  cases make_start_points_u32 fuel sequences.length T with
  | error e => simp only [same_outcome, State.init]
  | ok res =>
    exact query_loop_same_outcome sequences res.2 T fuel query_list _ _ ⟨rfl, rfl, rfl⟩ rfl

theorem same_outcome_file (run1 run2 : Except Stopped State) (h : same_outcome run1 run2) :
    file_after run1 = file_after run2 := by
  cases run1 with
  | error e1 =>
    cases run2 with
    | error e2 =>
      have h2 : e1 = e2 := h
      rw [h2]
    | ok s2 => exact absurd h (by simp [same_outcome])
  | ok s1 =>
    cases run2 with
    | error e2 => exact absurd h (by simp [same_outcome])
    | ok s2 =>
      have h2 : s1.pres_ofs = s2.pres_ofs := h
      simp only [file_after, h2]

/-! ## Claims about `call_strings` -/

/-- Claim C4, as stated, fails: with `2 ^ 32` threads the launch loop never ends, so lines
59-77 build no list `present` for the query `ACGT`, whatever the vector `start_points`, the
state and the bound on the iterations; a run of `call_strings` does not even leave the
partition loop. -/
theorem merge_in_partition_order_fails :
    1 ≤ 2 ^ 32
      ∧ (∀ fuel sp st res,
          search_query example_sequences sp (2 ^ 32) fuel st "ACGT" ≠ .ok res)
      ∧ (∀ ndebug fuel sched,
          call_strings ndebug fuel example_sequences ["ACGT"] (2 ^ 32) sched
            = .error { failure := .fuel_exhausted, output_file := some "" }) :=
  ⟨by decide,
    fun fuel sp st res =>
      search_query_diverges example_sequences sp (2 ^ 32) fuel (Nat.le_refl _) st "ACGT" res,
    fun ndebug fuel sched =>
      call_strings_diverges ndebug fuel example_sequences ["ACGT"] (2 ^ 32) (Nat.le_refl _)
        sched⟩

/-- Claim C4 (merge in partition order), amended: for `1 ≤ T < 2 ^ 32`, a number of sequences
below `2 ^ 64`, every bound above `T` on the iterations of the counting loops and a query
started with an empty queue, whatever the order in which the workers finish, `present` is the
concatenation of the results of `seq_search` on the ranges
`[start_points[i], start_points[i + 1])` for `i = 0, ..., T - 1` in this order, and the queue is
empty again when the collecting loop ends and when the loop body ends. In a run of
`call_strings` every query starts in a state with an empty queue: the state in which the run on
the queries before it has ended. -/
theorem merge_in_partition_order (ndebug : Bool) (fuel : Nat) (sequences : List Fasta) (T : Nat)
    (hT : 1 ≤ T) (hT2 : T < 2 ^ 32) (hN : sequences.length < 2 ^ 64) (hfuel : T < fuel)
    (query : String) (st : State) (hq : st.map_threads = []) :
    ∃ (sp : List Nat) (st1 : State) (parts : List (List String)),
      make_start_points_u32 fuel sequences.length T = .ok (T, sp)
      ∧ search_query sequences sp T fuel st query = .ok (st1, parts.flatten)
      ∧ List.Forall₂
          (fun i part => ∃ a b, sp[i]? = some a ∧ sp[i + 1]? = some b
            ∧ seq_search query sequences a b = some part)
          (List.range T) parts
      ∧ st1.map_threads = []
      ∧ (∃ st2, query_step sequences sp T fuel st query = .ok st2 ∧ st2.map_threads = [])
      ∧ (∀ before sched, ∃ st0,
          call_strings ndebug fuel sequences before T sched = .ok st0
          ∧ st0.map_threads = []
          ∧ call_strings ndebug fuel sequences (before ++ [query]) T sched
            = query_step sequences sp T fuel st0 query) := by
  obtain ⟨sched1, h1⟩ := search_query_eq sequences T fuel hT hT2 hfuel query st hq
  obtain ⟨sched2, h2⟩ := query_step_eq sequences T fuel hT hT2 hfuel query st hq
  refine ⟨_, _, _, make_start_points_u32_closed _ T fuel hT hT2 hN hfuel, h1, ?_, rfl,
    ⟨_, h2, rfl⟩, ?_⟩
  · rw [List.forall₂_map_right_iff, List.forall₂_same]
    intro i hi
    have hi : i < T := List.mem_range.mp hi
    exact ⟨_, _, start_points_get _ T i (by omega), start_points_get _ T (i + 1) (by omega),
      seq_search_eq_ref query sequences _ _ (start_point_mono _ _ (by omega))
        (start_point_le_size _ _ _ hT (by omega))⟩
  · intro before sched
    exact call_strings_snoc ndebug fuel sequences before query T hT hT2 hN hfuel sched

/-- Witness of the amended C4: the query `ACGT` over the example sequences with two threads,
the second task finishing first. -/
theorem merge_in_partition_order_witness :
    1 ≤ 2 ∧ 2 < 2 ^ 32 ∧ example_sequences.length < 2 ^ 64 ∧ 2 < 3
      ∧ (State.init [[1]]).map_threads = []
      ∧ ∃ (sp : List Nat) (st1 : State) (parts : List (List String)),
        make_start_points_u32 3 example_sequences.length 2 = .ok (2, sp)
        ∧ search_query example_sequences sp 2 3 (State.init [[1]]) "ACGT"
          = .ok (st1, parts.flatten)
        ∧ List.Forall₂
            (fun i part => ∃ a b, sp[i]? = some a ∧ sp[i + 1]? = some b
              ∧ seq_search "ACGT" example_sequences a b = some part)
            (List.range 2) parts
        ∧ st1.map_threads = []
        ∧ (∃ st2, query_step example_sequences sp 2 3 (State.init [[1]]) "ACGT" = .ok st2
            ∧ st2.map_threads = [])
        ∧ (∀ before sched, ∃ st0,
            call_strings false 3 example_sequences before 2 sched = .ok st0
            ∧ st0.map_threads = []
            ∧ call_strings false 3 example_sequences (before ++ ["ACGT"]) 2 sched
              = query_step example_sequences sp 2 3 st0 "ACGT") :=
  ⟨by decide, by decide, by decide, by decide, rfl,
    merge_in_partition_order false 3 example_sequences 2 (by decide) (by decide) (by decide)
      (by decide) "ACGT" (State.init [[1]]) rfl⟩

/-- Claim C5 (output line format): lines 80-88 append to the output exactly the query, `" |"`,
for every name of `present` in order a space, the name and `:1`, and a line break when
`present` is not empty, and nothing when `present` is empty. For `1 ≤ T < 2 ^ 32`, a number of
sequences below `2 ^ 64`, every bound above `T` on the iterations of the counting loops and a
query started with an empty queue, the loop body collects a list `present` and appends exactly
that text for it; and whenever lines 59-77 return a list, for any worker count, the loop body
writes the text of lines 80-88 for that list. -/
theorem output_line_format (fuel : Nat) (sequences : List Fasta) (T : Nat)
    (hT : 1 ≤ T) (hT2 : T < 2 ^ 32) (hN : sequences.length < 2 ^ 64) (hfuel : T < fuel)
    (query : String) (st : State) (hq : st.map_threads = []) :
    ∃ (sp : List Nat) (st1 : State) (present : List String) (st2 : State),
      make_start_points_u32 fuel sequences.length T = .ok (T, sp)
      ∧ search_query sequences sp T fuel st query = .ok (st1, present)
      ∧ query_step sequences sp T fuel st query = .ok st2
      ∧ (present ≠ [] →
          st2.pres_ofs = st.pres_ofs ++ (query ++ " |" ++ line_tokens present ++ "\n"))
      ∧ (present = [] → st2.pres_ofs = st.pres_ofs)
      ∧ (∀ (pres_ofs unitig : String) (names : List String),
          print_results pres_ofs unitig names
            = if names = [] then pres_ofs
              else pres_ofs ++ (unitig ++ " |" ++ line_tokens names ++ "\n"))
      ∧ (∀ (sp0 : List Nat) (threads bound : Nat) (st0 end0 : State) (names : List String),
          search_query sequences sp0 threads bound st0 query = .ok (end0, names) →
          query_step sequences sp0 threads bound st0 query
            = .ok { end0 with pres_ofs := print_results end0.pres_ofs query names }) := by
  obtain ⟨sched1, h1⟩ := search_query_whole sequences T fuel hT hT2 hfuel query st hq
  obtain ⟨sched2, h2⟩ := query_step_eq sequences T fuel hT hT2 hfuel query st hq
  refine ⟨_, _, _, _, make_start_points_u32_closed _ T fuel hT hT2 hN hfuel, h1, h2,
    ?_, ?_, ?_, ?_⟩
  · intro hne
    simp only [query_output, if_neg hne, format_line]
  · intro he
    simp only [query_output, if_pos he, String.append_empty]
  · intro pres_ofs unitig names
    rw [print_results_eq, query_output]
    split_ifs
    · exact String.append_empty _
    · rfl
  · intro sp0 threads bound st0 end0 names h
    simp only [query_step, h]

/-- Witness of C5: the query `ACGT` over the example sequences with two threads. -/
theorem output_line_format_witness :
    1 ≤ 2 ∧ 2 < 2 ^ 32 ∧ example_sequences.length < 2 ^ 64 ∧ 2 < 3
      ∧ (State.init []).map_threads = []
      ∧ ∃ (sp : List Nat) (st1 : State) (present : List String) (st2 : State),
        make_start_points_u32 3 example_sequences.length 2 = .ok (2, sp)
        ∧ search_query example_sequences sp 2 3 (State.init []) "ACGT" = .ok (st1, present)
        ∧ query_step example_sequences sp 2 3 (State.init []) "ACGT" = .ok st2
        ∧ (present ≠ [] →
            st2.pres_ofs
              = (State.init []).pres_ofs ++ ("ACGT" ++ " |" ++ line_tokens present ++ "\n"))
        ∧ (present = [] → st2.pres_ofs = (State.init []).pres_ofs)
        ∧ (∀ (pres_ofs unitig : String) (names : List String),
            print_results pres_ofs unitig names
              = if names = [] then pres_ofs
                else pres_ofs ++ (unitig ++ " |" ++ line_tokens names ++ "\n"))
        ∧ (∀ (sp0 : List Nat) (threads bound : Nat) (st0 end0 : State) (names : List String),
            search_query example_sequences sp0 threads bound st0 "ACGT" = .ok (end0, names) →
            query_step example_sequences sp0 threads bound st0 "ACGT"
              = .ok { end0 with pres_ofs := print_results end0.pres_ofs "ACGT" names }) :=
  ⟨by decide, by decide, by decide, by decide, rfl,
    output_line_format 3 example_sequences 2 (by decide) (by decide) (by decide) (by decide)
      "ACGT" (State.init []) rfl⟩

/-- Claim C6, as stated, fails: with `2 ^ 32` threads the query `ACGT`, which matches `ref1`
and whose output is the line `ACGT | ref1:1`, gets no line: the run never reaches the end and
the output file stays empty, in either build and for every bound on the iterations. -/
theorem line_order_and_independence_fails :
    1 ≤ 2 ^ 32
      ∧ seq_search "ACGT" example_sequences 0 example_sequences.length = some ["ref1"]
      ∧ query_output "ACGT" (all_matches example_sequences "ACGT") = "ACGT | ref1:1\n"
      ∧ (∀ ndebug fuel sched,
          output ndebug fuel example_sequences ["ACGT"] (2 ^ 32) sched = none
          ∧ file_after (call_strings ndebug fuel example_sequences ["ACGT"] (2 ^ 32) sched)
            = some "") := by
  refine ⟨by decide, by decide, by decide, fun ndebug fuel sched => ⟨?_, ?_⟩⟩
  · exact output_diverges ndebug fuel example_sequences ["ACGT"] (2 ^ 32) (Nat.le_refl _) sched
  · rw [call_strings_diverges ndebug fuel example_sequences ["ACGT"] (2 ^ 32) (Nat.le_refl _)
      sched]
    rfl

/-- Claim C6 (line order and query independence), amended: for fixed sequences, fewer than
`2 ^ 64`, for `1 ≤ T < 2 ^ 32` and every bound above `T` on the iterations of the counting
loops, in either build and whatever the order in which the workers finish, the output for one
query is the line of that query or the empty text and depends only on the query and the
sequences; the output for a list of queries is the concatenation of these texts in input
order; the output for `qs1 ++ qs2` is the output for `qs1` followed by the output for `qs2`;
the output consists of the lines of the matched queries, so there are at most as many lines
as queries; and the empty list of queries gives the empty output. -/
theorem line_order_and_independence (fuel : Nat) (sequences : List Fasta) (T : Nat)
    (hT : 1 ≤ T) (hT2 : T < 2 ^ 32) (hN : sequences.length < 2 ^ 64) (hfuel : T < fuel) :
    (∀ ndebug query sched, output ndebug fuel sequences [query] T sched
        = some (query_output query (all_matches sequences query)))
      ∧ (∀ ndebug query_list sched, output ndebug fuel sequences query_list T sched
          = some (String.join (query_list.map
              (fun query => query_output query (all_matches sequences query)))))
      ∧ (∀ ndebug qs1 qs2 sched sched1 sched2, ∃ out1 out2,
          output ndebug fuel sequences qs1 T sched1 = some out1
          ∧ output ndebug fuel sequences qs2 T sched2 = some out2
          ∧ output ndebug fuel sequences (qs1 ++ qs2) T sched = some (out1 ++ out2))
      ∧ (∀ ndebug query_list sched, output ndebug fuel sequences query_list T sched
            = some (String.join (query_list.filterMap (query_line sequences)))
          ∧ (query_list.filterMap (query_line sequences)).length ≤ query_list.length)
      ∧ (∀ ndebug sched, output ndebug fuel sequences [] T sched = some "") := by
  refine ⟨?_, ?_, ?_, ?_, ?_⟩
  · intro ndebug query sched
    rw [output_eq ndebug fuel sequences _ T hT hT2 hN hfuel, run_output, run_output,
      String.append_empty]
  · intro ndebug query_list sched
    rw [output_eq ndebug fuel sequences _ T hT hT2 hN hfuel, run_output_eq_join]
  · intro ndebug qs1 qs2 sched sched1 sched2
    exact ⟨_, _, output_eq ndebug fuel sequences qs1 T hT hT2 hN hfuel sched1,
      output_eq ndebug fuel sequences qs2 T hT hT2 hN hfuel sched2,
      by rw [output_eq ndebug fuel sequences _ T hT hT2 hN hfuel, run_output_append]⟩
  · intro ndebug query_list sched
    exact ⟨by rw [output_eq ndebug fuel sequences _ T hT hT2 hN hfuel, run_output_eq_lines],
      List.length_filterMap_le _ _⟩
  · intro ndebug sched
    rw [output_eq ndebug fuel sequences _ T hT hT2 hN hfuel, run_output]

/-- Witness of the amended C6: the example sequences with two threads. -/
theorem line_order_and_independence_witness :
    1 ≤ 2 ∧ 2 < 2 ^ 32 ∧ example_sequences.length < 2 ^ 64 ∧ 2 < 3
      ∧ (∀ ndebug query sched, output ndebug 3 example_sequences [query] 2 sched
          = some (query_output query (all_matches example_sequences query)))
      ∧ (∀ ndebug query_list sched, output ndebug 3 example_sequences query_list 2 sched
          = some (String.join (query_list.map
              (fun query => query_output query (all_matches example_sequences query)))))
      ∧ (∀ ndebug qs1 qs2 sched sched1 sched2, ∃ out1 out2,
          output ndebug 3 example_sequences qs1 2 sched1 = some out1
          ∧ output ndebug 3 example_sequences qs2 2 sched2 = some out2
          ∧ output ndebug 3 example_sequences (qs1 ++ qs2) 2 sched = some (out1 ++ out2))
      ∧ (∀ ndebug query_list sched, output ndebug 3 example_sequences query_list 2 sched
            = some (String.join (query_list.filterMap (query_line example_sequences)))
          ∧ (query_list.filterMap (query_line example_sequences)).length ≤ query_list.length)
      ∧ (∀ ndebug sched, output ndebug 3 example_sequences [] 2 sched = some "") :=
  ⟨by decide, by decide, by decide, by decide,
    line_order_and_independence 3 example_sequences 2 (by decide) (by decide) (by decide)
      (by decide)⟩

/-- Claim C7, as stated, fails: for the query `ACGT` over the example sequences, one thread
reports the name `ref1`, while with `2 ^ 32` threads lines 59-77 never return and the partition
loop never ends, so that nothing is reported. -/
theorem worker_count_invariance_fails :
    1 ≤ 1 ∧ 1 ≤ 2 ^ 32
      ∧ (∃ sp st1, make_start_points_u32 2 example_sequences.length 1 = .ok (1, sp)
          ∧ search_query example_sequences sp 1 2 (State.init []) "ACGT" = .ok (st1, ["ref1"]))
      ∧ (∀ fuel sp st res,
          search_query example_sequences sp (2 ^ 32) fuel st "ACGT" ≠ .ok res)
      ∧ (∀ fuel iterations sp,
          make_start_points_u32 fuel example_sequences.length (2 ^ 32) ≠ .ok (iterations, sp)) := by
  refine ⟨by decide, by decide, ⟨_, _, rfl, rfl⟩, ?_, ?_⟩
  · intro fuel sp st res
    exact search_query_diverges example_sequences sp (2 ^ 32) fuel (Nat.le_refl _) st "ACGT" res
  · intro fuel iterations sp h
    rw [make_start_points_u32_diverges _ (2 ^ 32) fuel (Nat.le_refl _)] at h
    cases h

/-- Claim C7 (worker-count invariance), amended: for fixed sequences, fewer than `2 ^ 64`, a
fixed query and two worker counts `1 ≤ T1 < 2 ^ 32` and `1 ≤ T2 < 2 ^ 32`, with bounds above
them on the iterations of the counting loops and whatever the order in which the workers
finish, a name is in `present` under `T1` exactly when it is in `present` under `T2`. -/
theorem worker_count_invariance (sequences : List Fasta) (query : String)
    (T1 T2 fuel1 fuel2 : Nat) (hT1 : 1 ≤ T1) (hT2 : 1 ≤ T2) (hB1 : T1 < 2 ^ 32)
    (hB2 : T2 < 2 ^ 32) (hN : sequences.length < 2 ^ 64) (hfuel1 : T1 < fuel1)
    (hfuel2 : T2 < fuel2) (st1 st2 : State)
    (hq1 : st1.map_threads = []) (hq2 : st2.map_threads = []) :
    ∃ (sp1 sp2 : List Nat) (end1 end2 : State) (present1 present2 : List String),
      make_start_points_u32 fuel1 sequences.length T1 = .ok (T1, sp1)
      ∧ make_start_points_u32 fuel2 sequences.length T2 = .ok (T2, sp2)
      ∧ search_query sequences sp1 T1 fuel1 st1 query = .ok (end1, present1)
      ∧ search_query sequences sp2 T2 fuel2 st2 query = .ok (end2, present2)
      ∧ ∀ name, name ∈ present1 ↔ name ∈ present2 := by
  obtain ⟨sched1, h1⟩ := search_query_whole sequences T1 fuel1 hT1 hB1 hfuel1 query st1 hq1
  obtain ⟨sched2, h2⟩ := search_query_whole sequences T2 fuel2 hT2 hB2 hfuel2 query st2 hq2
  exact ⟨_, _, _, _, _, _, make_start_points_u32_closed _ T1 fuel1 hT1 hB1 hN hfuel1,
    make_start_points_u32_closed _ T2 fuel2 hT2 hB2 hN hfuel2, h1, h2, fun _ => Iff.rfl⟩

/-- Witness of the amended C7: the query `ACGT` over the example sequences with one and with
three threads. -/
theorem worker_count_invariance_witness :
    1 ≤ 1 ∧ 1 ≤ 3 ∧ 1 < 2 ^ 32 ∧ 3 < 2 ^ 32 ∧ example_sequences.length < 2 ^ 64
      ∧ 1 < 2 ∧ 3 < 4
      ∧ (State.init []).map_threads = [] ∧ (State.init [[2]]).map_threads = []
      ∧ ∃ (sp1 sp2 : List Nat) (end1 end2 : State) (present1 present2 : List String),
        make_start_points_u32 2 example_sequences.length 1 = .ok (1, sp1)
        ∧ make_start_points_u32 4 example_sequences.length 3 = .ok (3, sp2)
        ∧ search_query example_sequences sp1 1 2 (State.init []) "ACGT" = .ok (end1, present1)
        ∧ search_query example_sequences sp2 3 4 (State.init [[2]]) "ACGT"
          = .ok (end2, present2)
        ∧ ∀ name, name ∈ present1 ↔ name ∈ present2 :=
  ⟨by decide, by decide, by decide, by decide, by decide, by decide, by decide, rfl, rfl,
    worker_count_invariance example_sequences "ACGT" 1 3 2 4 (by decide) (by decide)
      (by decide) (by decide) (by decide) (by decide) (by decide)
      (State.init []) (State.init [[2]]) rfl rfl⟩

/-! ## No thread -/

theorem query_loop_file (sequences : List Fasta) (sp : List Nat) (T fuel : Nat) :
    ∀ (query_list : List String) (st : State),
      file_after (query_loop sequences sp T fuel query_list st) ≠ none := by
  intro query_list
  induction query_list with
  | nil => intro st h; cases h
  | cons query rest ih =>
    intro st
    rw [query_loop, query_step]
    cases search_query sequences sp T fuel st query with
    | error e => intro h; cases h
    | ok res => exact ih _

/-- With at least one thread the output file is created, in either build. -/
theorem call_strings_file (ndebug : Bool) (fuel : Nat) (sequences : List Fasta)
    (query_list : List String) (T : Nat) (hT : 1 ≤ T) (sched : Schedule) :
    file_after (call_strings ndebug fuel sequences query_list T sched) ≠ none := by
  simp only [call_strings, if_neg (assert_passes ndebug T hT)]
  cases make_start_points_u32 fuel sequences.length T with
  | error e => intro h; cases h
  | ok res => exact query_loop_file sequences res.2 T fuel query_list _

/-- Claim C8, as stated, fails: in a build that defines `NDEBUG` the assertion is absent, and
a run with `num_threads = 0`, such as the run for the query `ACGT` over the example sequences,
creates the output file and then reaches the division by zero of line 33; no configuration
error is reported before. -/
theorem invalid_worker_count_fails :
    call_strings true 5 example_sequences ["ACGT"] 0 []
        = .error { failure := .division_by_zero, output_file := some "" }
      ∧ ∀ (fuel : Nat) (sequences : List Fasta) (query_list : List String) (sched : Schedule),
          call_strings true fuel sequences query_list 0 sched
            = .error { failure := .division_by_zero, output_file := some "" } :=
  ⟨rfl, fun _ _ _ _ => rfl⟩

/-- Claim C8, amended: in a build with assertions (`NDEBUG` not defined) a run with
`num_threads = 0` stops at `assert(num_threads >= 1)`, which aborts the process, in the
initial state: the output file has not been opened, nothing has been written, no future is
queued and no search task has been launched. The run does not reach the division by zero,
produces no output, and does not behave as the run with one thread. -/
theorem invalid_worker_count_rejected (fuel : Nat) (sequences : List Fasta)
    (query_list : List String) (sched : Schedule) :
    call_strings false fuel sequences query_list 0 sched
        = .error { failure := .assertion_failed
                     { pres_ofs := "", map_threads := [], launched := 0, sched := sched },
                   output_file := none }
      ∧ call_strings false fuel sequences query_list 0 sched
        ≠ .error { failure := .division_by_zero, output_file := some "" }
      ∧ (∀ stopped, call_strings false fuel sequences query_list 0 sched = .error stopped →
          stopped.failure ≠ .division_by_zero)
      ∧ output false fuel sequences query_list 0 sched = none
      ∧ file_after (call_strings false fuel sequences query_list 0 sched) = none
      ∧ call_strings false fuel sequences query_list 0 sched
        ≠ call_strings false fuel sequences query_list 1 sched := by
  have h0 : call_strings false fuel sequences query_list 0 sched
      = .error { failure := .assertion_failed
                   { pres_ofs := "", map_threads := [], launched := 0, sched := sched },
                 output_file := none } := rfl
  refine ⟨h0, ?_, ?_, ?_, ?_, ?_⟩
  · rw [h0]
    intro h
    cases h
  · intro stopped h
    rw [h0] at h
    cases h
    intro h2
    cases h2
  · simp only [output, h0]
  · rw [h0]
    rfl
  · intro h
    have hfile := call_strings_file false fuel sequences query_list 1 (Nat.le_refl 1) sched
    rw [← h, h0] at hfile
    exact hfile rfl

/-! ## Determinism -/

/-- Claim C9 (determinism of the merged output): for every input, every worker count `T ≥ 1`
and any two orders in which the workers finish, the two runs have the same outcome: both reach
the end with the same output, or both stop in the same way with the same content of the
output file; the file content and the output are byte-identical. For `T < 2 ^ 32`, fewer than
`2 ^ 64` sequences and a bound above `T` on the iterations of the counting loops both runs
reach the end. For every query, lines 59-77 fail in the same way or collect the same list
`present` in both runs, because the futures are read front first. -/
theorem deterministic_output (ndebug : Bool) (fuel : Nat) (sequences : List Fasta)
    (query_list : List String) (T : Nat) (hT : 1 ≤ T) (sched1 sched2 : Schedule) :
    same_outcome (call_strings ndebug fuel sequences query_list T sched1)
        (call_strings ndebug fuel sequences query_list T sched2)
      ∧ file_after (call_strings ndebug fuel sequences query_list T sched1)
        = file_after (call_strings ndebug fuel sequences query_list T sched2)
      ∧ output ndebug fuel sequences query_list T sched1
        = output ndebug fuel sequences query_list T sched2
      ∧ (T < 2 ^ 32 → sequences.length < 2 ^ 64 → T < fuel →
          ∃ end1 end2, call_strings ndebug fuel sequences query_list T sched1 = .ok end1
            ∧ call_strings ndebug fuel sequences query_list T sched2 = .ok end2
            ∧ end1.pres_ofs = end2.pres_ofs)
      ∧ (∀ (sp : List Nat) (query : String) (st1 st2 : State),
          st1.map_threads = [] → st2.map_threads = [] →
          (search_query sequences sp T fuel st1 query).map Prod.snd
            = (search_query sequences sp T fuel st2 query).map Prod.snd) := by
  have hsame := call_strings_same_outcome ndebug fuel sequences query_list T hT sched1 sched2
  refine ⟨hsame, same_outcome_file _ _ hsame, ?_, ?_, ?_⟩
  · unfold output
    cases h1 : call_strings ndebug fuel sequences query_list T sched1 with
    | error e1 =>
      cases h2 : call_strings ndebug fuel sequences query_list T sched2 with
      | error e2 => rfl
      | ok s2 => rw [h1, h2] at hsame; exact absurd hsame (by simp [same_outcome])
    | ok s1 =>
      cases h2 : call_strings ndebug fuel sequences query_list T sched2 with
      | error e2 => rw [h1, h2] at hsame; exact absurd hsame (by simp [same_outcome])
      | ok s2 =>
        rw [h1, h2] at hsame
        have h3 : s1.pres_ofs = s2.pres_ofs := hsame
        simp only [h3]
  · intro hT2 hN hfuel
    obtain ⟨s1, h1⟩ := call_strings_eq ndebug fuel sequences query_list T hT hT2 hN hfuel sched1
    obtain ⟨s2, h2⟩ := call_strings_eq ndebug fuel sequences query_list T hT hT2 hN hfuel sched2
    exact ⟨_, _, h1, h2, rfl⟩
  · intro sp query st1 st2 hq1 hq2
    rcases search_query_uniform sequences sp T fuel query with ⟨e, he⟩ | ⟨n, present, hok⟩
    · rw [he st1 hq1, he st2 hq2]
    · obtain ⟨s1, h1⟩ := hok st1 hq1
      obtain ⟨s2, h2⟩ := hok st2 hq2
      rw [h1, h2]
      rfl

/-- Witness of C9: two queries over the example sequences with two threads, once with the
second task of the first query finishing first, once with no task finishing early. -/
theorem deterministic_output_witness :
    1 ≤ 2
      ∧ same_outcome (call_strings false 3 example_sequences ["ACGT", "AAAA"] 2 [[1]])
          (call_strings false 3 example_sequences ["ACGT", "AAAA"] 2 [])
      ∧ file_after (call_strings false 3 example_sequences ["ACGT", "AAAA"] 2 [[1]])
        = file_after (call_strings false 3 example_sequences ["ACGT", "AAAA"] 2 [])
      ∧ output false 3 example_sequences ["ACGT", "AAAA"] 2 [[1]]
        = output false 3 example_sequences ["ACGT", "AAAA"] 2 []
      ∧ (2 < 2 ^ 32 → example_sequences.length < 2 ^ 64 → 2 < 3 →
          ∃ end1 end2, call_strings false 3 example_sequences ["ACGT", "AAAA"] 2 [[1]] = .ok end1
            ∧ call_strings false 3 example_sequences ["ACGT", "AAAA"] 2 [] = .ok end2
            ∧ end1.pres_ofs = end2.pres_ofs)
      ∧ (∀ (sp : List Nat) (query : String) (st1 st2 : State),
          st1.map_threads = [] → st2.map_threads = [] →
          (search_query example_sequences sp 2 3 st1 query).map Prod.snd
            = (search_query example_sequences sp 2 3 st2 query).map Prod.snd) :=
  ⟨by decide,
    deterministic_output false 3 example_sequences ["ACGT", "AAAA"] 2 (by decide) [[1]] []⟩

/-! ## One token for each matching sequence -/

/-- Claim C10 (a reference is listed once per query): for `1 ≤ T < 2 ^ 32`, fewer than
`2 ^ 64` sequences, every bound above `T` on the iterations of the counting loops and a query
started with an empty queue, the names in `present` are the names at a strictly increasing
list of sequence indices, so every index contributes at most one name; `present` is a
subsequence of the names of the sequences in load order, has at most `N` entries, and repeats
no name when the names of the sequences are distinct. In the example of the specification
`ref1` contains `ACGT` and its reverse complement, and the output is the single line
`ACGT | ref1:1`. Whenever a run, for any worker count, gets through its partition loop and
lines 59-77 return a list, that list is such a subsequence. -/
theorem listed_once_per_query (fuel : Nat) (sequences : List Fasta) (T : Nat)
    (hT : 1 ≤ T) (hT2 : T < 2 ^ 32) (hN : sequences.length < 2 ^ 64) (hfuel : T < fuel)
    (query : String) (st : State) (hq : st.map_threads = []) :
    ∃ (sp : List Nat) (st1 : State) (present : List String),
      make_start_points_u32 fuel sequences.length T = .ok (T, sp)
      ∧ search_query sequences sp T fuel st query = .ok (st1, present)
      ∧ (∃ idxs : List Nat, idxs.Pairwise (fun i j => i < j)
          ∧ (∀ i ∈ idxs, i < sequences.length)
          ∧ List.Forall₂
              (fun i name => ∃ fasta, sequences[i]? = some fasta ∧ fasta.get_name = name)
              idxs present)
      ∧ present.Sublist (sequences.map Fasta.get_name)
      ∧ present.length ≤ sequences.length
      ∧ ((sequences.map Fasta.get_name).Nodup → present.Nodup)
      ∧ (∃ ref1 ∈ example_sequences, ref1.get_name = "ref1" ∧ ref1.hasSeq "ACGT" = true
          ∧ ref1.hasSeq (rev_comp "ACGT") = true)
      ∧ (∀ ndebug sched,
          output ndebug fuel example_sequences ["ACGT"] T sched = some "ACGT | ref1:1\n")
      ∧ (∀ (bound threads iterations : Nat) (sp0 : List Nat) (st0 end0 : State)
          (names : List String), st0.map_threads = [] →
          make_start_points_u32 bound sequences.length threads = .ok (iterations, sp0) →
          search_query sequences sp0 threads bound st0 query = .ok (end0, names) →
          names.Sublist (sequences.map Fasta.get_name) ∧ names.length ≤ sequences.length
            ∧ ((sequences.map Fasta.get_name).Nodup → names.Nodup)) := by
  obtain ⟨sched1, h1⟩ := search_query_whole sequences T fuel hT hT2 hfuel query st hq
  have hsub := seq_search_ref_sublist query sequences 0 sequences.length
  refine ⟨_, _, _, make_start_points_u32_closed _ T fuel hT hT2 hN hfuel, h1, ?_, hsub,
    ?_, ?_, ?_, ?_, ?_⟩
  · refine ⟨_, ?_, ?_, slice_index_view query sequences sequences.length 0 (by omega)⟩
    · exact List.Pairwise.sublist (List.filter_sublist _) (List.pairwise_lt_range' 0 _)
    · intro i hi
      have := (List.mem_range'_1.mp (List.mem_of_mem_filter hi)).2
      omega
  · have := hsub.length_le
    simpa using this
  · intro hnodup
    exact hnodup.sublist hsub
  · exact ⟨{ name := "ref1", sequence := "ACGTACGT" }, by decide, by decide, by decide,
      by decide⟩
  · intro ndebug sched
    rw [output_eq ndebug fuel example_sequences _ T hT hT2 (by decide) hfuel]
    decide
  · intro bound threads iterations sp0 st0 end0 names hq0 hpart hsearch
    obtain ⟨g1, g2, g3⟩ := make_start_points_u32_ok _ _ _ _ _ hpart
    rw [make_start_points_u32_closed _ threads bound g1 g2 hN g3] at hpart
    have hsp : (List.range (threads + 1)).map (start_point sequences.length threads) = sp0 := by
      injection hpart with hpart
      exact (Prod.mk.inj hpart).2
    obtain ⟨sched2, hwhole⟩ := search_query_whole sequences threads bound g1 g2 g3 query st0 hq0
    rw [hsp, hsearch] at hwhole
    have hnames : names = seq_search_ref query sequences 0 sequences.length := by
      injection hwhole with hwhole
      exact (Prod.mk.inj hwhole).2
    rw [hnames]
    refine ⟨hsub, ?_, fun hnodup => hnodup.sublist hsub⟩
    have := hsub.length_le
    simpa using this

/-- Witness of C10: the query `ACGT` over the example sequences with two threads. -/
theorem listed_once_per_query_witness :
    1 ≤ 2 ∧ 2 < 2 ^ 32 ∧ example_sequences.length < 2 ^ 64 ∧ 2 < 3
      ∧ (State.init []).map_threads = []
      ∧ ∃ (sp : List Nat) (st1 : State) (present : List String),
        make_start_points_u32 3 example_sequences.length 2 = .ok (2, sp)
        ∧ search_query example_sequences sp 2 3 (State.init []) "ACGT" = .ok (st1, present)
        ∧ (∃ idxs : List Nat, idxs.Pairwise (fun i j => i < j)
            ∧ (∀ i ∈ idxs, i < example_sequences.length)
            ∧ List.Forall₂
                (fun i name => ∃ fasta, example_sequences[i]? = some fasta
                  ∧ fasta.get_name = name)
                idxs present)
        ∧ present.Sublist (example_sequences.map Fasta.get_name)
        ∧ present.length ≤ example_sequences.length
        ∧ ((example_sequences.map Fasta.get_name).Nodup → present.Nodup)
        ∧ (∃ ref1 ∈ example_sequences, ref1.get_name = "ref1" ∧ ref1.hasSeq "ACGT" = true
            ∧ ref1.hasSeq (rev_comp "ACGT") = true)
        ∧ (∀ ndebug sched,
            output ndebug 3 example_sequences ["ACGT"] 2 sched = some "ACGT | ref1:1\n")
        ∧ (∀ (bound threads iterations : Nat) (sp0 : List Nat) (st0 end0 : State)
            (names : List String), st0.map_threads = [] →
            make_start_points_u32 bound example_sequences.length threads
              = .ok (iterations, sp0) →
            search_query example_sequences sp0 threads bound st0 "ACGT" = .ok (end0, names) →
            names.Sublist (example_sequences.map Fasta.get_name)
              ∧ names.length ≤ example_sequences.length
              ∧ ((example_sequences.map Fasta.get_name).Nodup → names.Nodup)) :=
  ⟨by decide, by decide, by decide, by decide, rfl,
    listed_once_per_query 3 example_sequences 2 (by decide) (by decide) (by decide) (by decide)
      "ACGT" (State.init []) rfl⟩

/-! ## The tasks launched for one query (lines 59-67) -/

theorem countP_lt_range (N : Nat) :
    ∀ T, (List.range T).countP (fun i => decide (i < N)) = min N T := by
  intro T
  induction T with
  | zero => simp
  | succ T ih =>
    rw [List.range_succ, List.countP_append, ih, List.countP_singleton]
    by_cases h : T < N
    · simp only [h, decide_True, if_true]; omega
    · simp only [h, decide_False]; simp; omega

theorem nondegenerate_ranges_eq (N T : Nat) (hT : 1 ≤ T) :
    nondegenerate_ranges ((List.range (T + 1)).map (start_point N T)) T = min N T := by
  unfold nondegenerate_ranges
  have hstep : ∀ i ∈ List.range T,
      ((match ((List.range (T + 1)).map (start_point N T))[i]?,
          ((List.range (T + 1)).map (start_point N T))[i + 1]? with
        | some a, some b => decide (a < b)
        | _, _ => false) = true)
        ↔ (decide (start_point N T i < start_point N T (i + 1)) = true) := by
    intro i hi
    have hi : i < T := List.mem_range.mp hi
    rw [start_points_get _ T i (by omega), start_points_get _ T (i + 1) (by omega)]
  rw [List.countP_congr hstep]
  by_cases hNT : T ≤ N
  · have hq : 1 ≤ N / T := (Nat.le_div_iff_mul_le (by omega)).mpr (by omega)
    rw [Nat.min_eq_right hNT]
    have hall : (List.range T).countP
        (fun i => decide (start_point N T i < start_point N T (i + 1)))
          = (List.range T).length := by
      rw [List.countP_eq_length]
      intro i _
      rw [start_point_succ, decide_eq_true_eq]
      split_ifs <;> omega
    rw [hall, List.length_range]
  · have hlt : N < T := by omega
    have hcongr : ∀ i ∈ List.range T,
        (decide (start_point N T i < start_point N T (i + 1)) = true)
          ↔ (decide (i < N) = true) := by
      intro i _
      rw [start_point_succ, Nat.div_eq_of_lt hlt, Nat.mod_eq_of_lt hlt, decide_eq_true_eq,
        decide_eq_true_eq]
      split_ifs with h <;> omega
    rw [List.countP_congr hcongr, countP_lt_range]

/-- Claim C11, as stated, fails: with the two example sequences and five threads the launch
loop starts five tasks for the query `ACGT`, while only two ranges of the partition are
non-degenerate. -/
theorem one_task_per_nonempty_range_fails :
    ∃ (sp : List Nat) (st1 st2 : State),
      make_start_points_u32 6 example_sequences.length 5 = .ok (5, sp)
      ∧ launch_loop_u32 "ACGT" sp 5 6 0 (State.init []) 0 = .ok (5, st1)
      ∧ st1.map_threads.length = 5
      ∧ st1.launched = 5
      ∧ call_strings false 6 example_sequences ["ACGT"] 5 [] = .ok st2
      ∧ st2.launched = 5
      ∧ nondegenerate_ranges sp 5 = 2
      ∧ min example_sequences.length 5 = 2
      ∧ st1.launched ≠ nondegenerate_ranges sp 5 :=
  ⟨_, _, _, rfl, rfl, by decide, by decide, rfl, by decide, by decide, by decide, by decide⟩

/-- Claim C11, amended: for `1 ≤ T < 2 ^ 32`, fewer than `2 ^ 64` sequences and every bound
above `T` on its iterations, the launch loop ends after `T` iterations and starts, for every
query, exactly one task for each of the `T` ranges of the partition, the empty ranges
included: it pushes `T` futures, the `i`-th with the arguments `start_points[i]` and
`start_points[i + 1]`, so `T` tasks are launched per query. The number of non-degenerate
ranges is `min N T`; it equals the number of launched tasks exactly when `T ≤ N`. A task on an
empty range returns no name. -/
theorem one_task_per_range (fuel : Nat) (sequences : List Fasta) (T : Nat) (hT : 1 ≤ T)
    (hT2 : T < 2 ^ 32) (hN : sequences.length < 2 ^ 64) (hfuel : T < fuel) (query : String)
    (st : State) :
    ∃ (sp : List Nat) (st1 : State) (futs : List Future),
      make_start_points_u32 fuel sequences.length T = .ok (T, sp)
      ∧ launch_loop_u32 query sp T fuel 0 st 0 = .ok (T, st1)
      ∧ st1.launched = st.launched + T
      ∧ st1.map_threads = st.map_threads ++ futs
      ∧ futs.length = T
      ∧ (∀ i, i < T → ∃ a b, sp[i]? = some a ∧ sp[i + 1]? = some b
          ∧ futs[i]? = some { query := query, start := a, stop := b, shared := .running })
      ∧ nondegenerate_ranges sp T = min sequences.length T
      ∧ (st1.launched = st.launched + nondegenerate_ranges sp T ↔ T ≤ sequences.length)
      ∧ (∀ i a, i < T → sp[i]? = some a → sp[i + 1]? = some a →
          seq_search query sequences a a = some []) := by
  have hlaunch := launch_loop_u32_closed query (start_point sequences.length T) T fuel hT2
    hfuel st
  have hcount := nondegenerate_ranges_eq sequences.length T hT
  refine ⟨_, _, _, make_start_points_u32_closed _ T fuel hT hT2 hN hfuel, hlaunch, rfl, rfl,
    by simp, ?_, hcount, ?_, ?_⟩
  · intro i hi
    refine ⟨_, _, start_points_get _ T i (by omega), start_points_get _ T (i + 1) (by omega), ?_⟩
    rw [List.getElem?_map, List.getElem?_range hi]
    rfl
  · rw [hcount]
    simp only []
    omega
  · intro i a hi ha _
    obtain ⟨-, rfl⟩ := start_points_get_some _ T i a ha
    rw [seq_search_eq_ref query sequences _ _ (Nat.le_refl _)
      (start_point_le_size _ _ _ hT (by omega))]
    simp [seq_search_ref]

/-- Witness of the amended C11: the query `ACGT` over the example sequences with five
threads. -/
theorem one_task_per_range_witness :
    1 ≤ 5 ∧ 5 < 2 ^ 32 ∧ example_sequences.length < 2 ^ 64 ∧ 5 < 6
      ∧ ∃ (sp : List Nat) (st1 : State) (futs : List Future),
        make_start_points_u32 6 example_sequences.length 5 = .ok (5, sp)
        ∧ launch_loop_u32 "ACGT" sp 5 6 0 (State.init []) 0 = .ok (5, st1)
        ∧ st1.launched = (State.init []).launched + 5
        ∧ st1.map_threads = (State.init []).map_threads ++ futs
        ∧ futs.length = 5
        ∧ (∀ i, i < 5 → ∃ a b, sp[i]? = some a ∧ sp[i + 1]? = some b
            ∧ futs[i]? = some { query := "ACGT", start := a, stop := b, shared := .running })
        ∧ nondegenerate_ranges sp 5 = min example_sequences.length 5
        ∧ (st1.launched = (State.init []).launched + nondegenerate_ranges sp 5
            ↔ 5 ≤ example_sequences.length)
        ∧ (∀ i a, i < 5 → sp[i]? = some a → sp[i + 1]? = some a →
            seq_search "ACGT" example_sequences a a = some []) :=
  ⟨by decide, by decide, by decide, by decide,
    one_task_per_range 6 example_sequences 5 (by decide) (by decide) (by decide) (by decide)
      "ACGT" (State.init [])⟩

/-! ## Independence of the worker count, order included -/

/-- Claim C12, as stated, fails: for the query `ACGT` over the example sequences the run with
one thread writes the line `ACGT | ref1:1`, while the run with `2 ^ 32` threads never reaches
the end and leaves the output file empty, in either build and for every bound on the
iterations. -/
theorem output_independent_of_worker_count_fails :
    1 ≤ 1 ∧ 1 ≤ 2 ^ 32
      ∧ output false 2 example_sequences ["ACGT"] 1 [] = some "ACGT | ref1:1\n"
      ∧ (∀ ndebug fuel sched,
          output ndebug fuel example_sequences ["ACGT"] (2 ^ 32) sched = none
          ∧ file_after (call_strings ndebug fuel example_sequences ["ACGT"] (2 ^ 32) sched)
            = some ""
          ∧ file_after (call_strings ndebug fuel example_sequences ["ACGT"] (2 ^ 32) sched)
            ≠ file_after (call_strings false 2 example_sequences ["ACGT"] 1 [])) := by
  refine ⟨by decide, by decide, by decide, fun ndebug fuel sched => ?_⟩
  have hdiv := call_strings_diverges ndebug fuel example_sequences ["ACGT"] (2 ^ 32)
    (Nat.le_refl _) sched
  refine ⟨output_diverges ndebug fuel example_sequences ["ACGT"] (2 ^ 32) (Nat.le_refl _)
    sched, by rw [hdiv]; rfl, ?_⟩
  rw [hdiv]
  decide

/-- Claim C12 (the output does not depend on the worker count, order included), amended: for
fewer than `2 ^ 64` sequences and worker counts `1 ≤ T1 < 2 ^ 32` and `1 ≤ T2 < 2 ^ 32`, with
bounds above them on the iterations of the counting loops, in either build and whatever the
order in which the workers finish, the list `present` collected under `T1` is the result of
`seq_search` over all sequences, the lists collected under `T1` and under `T2` are equal as
lists, and the outputs of the two runs are the same text. -/
theorem output_independent_of_worker_count (sequences : List Fasta) (query : String)
    (T1 T2 fuel1 fuel2 : Nat) (hT1 : 1 ≤ T1) (hT2 : 1 ≤ T2) (hB1 : T1 < 2 ^ 32)
    (hB2 : T2 < 2 ^ 32) (hN : sequences.length < 2 ^ 64) (hfuel1 : T1 < fuel1)
    (hfuel2 : T2 < fuel2) :
    (∀ st : State, st.map_threads = [] →
        ∃ (sp : List Nat) (st1 : State) (present : List String),
          make_start_points_u32 fuel1 sequences.length T1 = .ok (T1, sp)
          ∧ search_query sequences sp T1 fuel1 st query = .ok (st1, present)
          ∧ seq_search query sequences 0 sequences.length = some present)
      ∧ (∀ st1 st2 : State, st1.map_threads = [] → st2.map_threads = [] →
          ∃ (sp1 sp2 : List Nat) (end1 end2 : State) (present : List String),
            make_start_points_u32 fuel1 sequences.length T1 = .ok (T1, sp1)
            ∧ make_start_points_u32 fuel2 sequences.length T2 = .ok (T2, sp2)
            ∧ search_query sequences sp1 T1 fuel1 st1 query = .ok (end1, present)
            ∧ search_query sequences sp2 T2 fuel2 st2 query = .ok (end2, present))
      ∧ (∀ (ndebug1 ndebug2 : Bool) (query_list : List String) (sched1 sched2 : Schedule),
          ∃ out, output ndebug1 fuel1 sequences query_list T1 sched1 = some out
            ∧ output ndebug2 fuel2 sequences query_list T2 sched2 = some out) := by
  refine ⟨?_, ?_, ?_⟩
  · intro st hq
    obtain ⟨sched, h⟩ := search_query_whole sequences T1 fuel1 hT1 hB1 hfuel1 query st hq
    exact ⟨_, _, _, make_start_points_u32_closed _ T1 fuel1 hT1 hB1 hN hfuel1, h,
      seq_search_eq_ref query sequences 0 sequences.length (Nat.zero_le _) (Nat.le_refl _)⟩
  · intro st1 st2 hq1 hq2
    obtain ⟨sched1, h1⟩ := search_query_whole sequences T1 fuel1 hT1 hB1 hfuel1 query st1 hq1
    obtain ⟨sched2, h2⟩ := search_query_whole sequences T2 fuel2 hT2 hB2 hfuel2 query st2 hq2
    exact ⟨_, _, _, _, _, make_start_points_u32_closed _ T1 fuel1 hT1 hB1 hN hfuel1,
      make_start_points_u32_closed _ T2 fuel2 hT2 hB2 hN hfuel2, h1, h2⟩
  · intro ndebug1 ndebug2 query_list sched1 sched2
    exact ⟨_, output_eq ndebug1 fuel1 sequences query_list T1 hT1 hB1 hN hfuel1 sched1,
      output_eq ndebug2 fuel2 sequences query_list T2 hT2 hB2 hN hfuel2 sched2⟩

/-- Witness of the amended C12: the query `TTTT` over the example sequences with one and with
two threads. -/
theorem output_independent_of_worker_count_witness :
    1 ≤ 1 ∧ 1 ≤ 2 ∧ 1 < 2 ^ 32 ∧ 2 < 2 ^ 32 ∧ example_sequences.length < 2 ^ 64
      ∧ 1 < 2 ∧ 2 < 3
      ∧ (∀ st : State, st.map_threads = [] →
          ∃ (sp : List Nat) (st1 : State) (present : List String),
            make_start_points_u32 2 example_sequences.length 1 = .ok (1, sp)
            ∧ search_query example_sequences sp 1 2 st "TTTT" = .ok (st1, present)
            ∧ seq_search "TTTT" example_sequences 0 example_sequences.length = some present)
      ∧ (∀ st1 st2 : State, st1.map_threads = [] → st2.map_threads = [] →
          ∃ (sp1 sp2 : List Nat) (end1 end2 : State) (present : List String),
            make_start_points_u32 2 example_sequences.length 1 = .ok (1, sp1)
            ∧ make_start_points_u32 3 example_sequences.length 2 = .ok (2, sp2)
            ∧ search_query example_sequences sp1 1 2 st1 "TTTT" = .ok (end1, present)
            ∧ search_query example_sequences sp2 2 3 st2 "TTTT" = .ok (end2, present))
      ∧ (∀ (ndebug1 ndebug2 : Bool) (query_list : List String) (sched1 sched2 : Schedule),
          ∃ out, output ndebug1 2 example_sequences query_list 1 sched1 = some out
            ∧ output ndebug2 3 example_sequences query_list 2 sched2 = some out) :=
  ⟨by decide, by decide, by decide, by decide, by decide, by decide, by decide,
    output_independent_of_worker_count example_sequences "TTTT" 1 2 2 3 (by decide) (by decide)
      (by decide) (by decide) (by decide) (by decide) (by decide)⟩

/-! ## Strand symmetry -/

theorem complement_involutive (c : Char) : complement (complement c) = c := by
  unfold complement
  by_cases hA : c = 'A'
  · subst hA; decide
  · by_cases hT : c = 'T'
    · subst hT; decide
    · by_cases hC : c = 'C'
      · subst hC; decide
      · by_cases hG : c = 'G'
        · subst hG; decide
        · simp only [hA, hT, hC, hG, if_false]

/-- The reverse complement as modelled from the specification is an involution, so the
condition of the strand symmetry holds for every query under that model. -/
theorem rev_comp_involutive (seq : String) : rev_comp (rev_comp seq) = seq := by
  unfold rev_comp
  simp only [List.map_reverse, List.reverse_reverse, List.map_map]
  have h : complement ∘ complement = id := funext complement_involutive
  rw [h, List.map_id]

theorem contains_either_rev_comp (query : String) (hinv : rev_comp (rev_comp query) = query)
    (fasta : Fasta) : contains_either (rev_comp query) fasta = contains_either query fasta := by
  unfold contains_either
  rw [hinv, Bool.or_comm]

theorem seq_search_ref_rev_comp (query : String) (hinv : rev_comp (rev_comp query) = query)
    (sequences : List Fasta) (start stop : Nat) :
    seq_search_ref (rev_comp query) sequences start stop
      = seq_search_ref query sequences start stop := by
  unfold seq_search_ref
  have hfun : contains_either (rev_comp query) = contains_either query :=
    funext (contains_either_rev_comp query hinv)
  rw [hfun]

/-- Claim C13 (strand symmetry): for a query that its double reverse complement gives back and
a range with `start ≤ end ≤ size`, `seq_search` returns a result, and the same result for the
query and for its reverse complement; for `1 ≤ T < 2 ^ 32`, fewer than `2 ^ 64` sequences and
a bound above `T` on the iterations of the counting loops, the outputs for the query and for
its reverse complement are built from the same list of names and differ only in the leading
query string. -/
theorem strand_symmetry (query : String) (hinv : rev_comp (rev_comp query) = query)
    (sequences : List Fasta) (start stop : Nat) (h1 : start ≤ stop)
    (h2 : stop ≤ sequences.length) :
    seq_search query sequences start stop = seq_search (rev_comp query) sequences start stop
      ∧ (∃ names, seq_search query sequences start stop = some names)
      ∧ (∀ (ndebug : Bool) (fuel T : Nat) (sched1 sched2 : Schedule),
          1 ≤ T → T < 2 ^ 32 → sequences.length < 2 ^ 64 → T < fuel →
          ∃ names, seq_search query sequences 0 sequences.length = some names
            ∧ output ndebug fuel sequences [query] T sched1 = some (query_output query names)
            ∧ output ndebug fuel sequences [rev_comp query] T sched2
              = some (query_output (rev_comp query) names)) := by
  refine ⟨?_, ⟨_, seq_search_eq_ref query sequences start stop h1 h2⟩, ?_⟩
  · rw [seq_search_eq_ref query sequences start stop h1 h2,
      seq_search_eq_ref (rev_comp query) sequences start stop h1 h2,
      seq_search_ref_rev_comp query hinv]
  · intro ndebug fuel T sched1 sched2 hT hT2 hN hfuel
    refine ⟨_, seq_search_eq_ref query sequences 0 sequences.length (Nat.zero_le _)
      (Nat.le_refl _), ?_, ?_⟩
    · rw [output_eq ndebug fuel sequences _ T hT hT2 hN hfuel, run_output, run_output,
        String.append_empty]
      rfl
    · rw [output_eq ndebug fuel sequences _ T hT hT2 hN hfuel, run_output, run_output,
        String.append_empty, all_matches, seq_search_ref_rev_comp query hinv]

/-- Witness of C13: the query `AAAA`, whose reverse complement is `TTTT`, over both example
sequences. -/
theorem strand_symmetry_witness :
    rev_comp (rev_comp "AAAA") = "AAAA" ∧ 0 ≤ 2 ∧ 2 ≤ example_sequences.length
      ∧ seq_search "AAAA" example_sequences 0 2
          = seq_search (rev_comp "AAAA") example_sequences 0 2
      ∧ (∃ names, seq_search "AAAA" example_sequences 0 2 = some names)
      ∧ (∀ (ndebug : Bool) (fuel T : Nat) (sched1 sched2 : Schedule),
          1 ≤ T → T < 2 ^ 32 → example_sequences.length < 2 ^ 64 → T < fuel →
          ∃ names, seq_search "AAAA" example_sequences 0 example_sequences.length = some names
            ∧ output ndebug fuel example_sequences ["AAAA"] T sched1
              = some (query_output "AAAA" names)
            ∧ output ndebug fuel example_sequences [rev_comp "AAAA"] T sched2
              = some (query_output (rev_comp "AAAA") names)) :=
  ⟨by decide, by decide, by decide,
    strand_symmetry "AAAA" (by decide) example_sequences 0 2 (by decide) (by decide)⟩

/-! ## Range validity and accesses inside the vectors -/

/-- Without its log the instrumented loop is the loop of `seq_search`. -/
theorem seq_search_visits_erase (query rev_query : String) (sequences : List Fasta)
    (stop : Nat) :
    ∀ fuel fasta_it visited present,
      (seq_search_visits query rev_query sequences stop fuel fasta_it visited present).map
          Prod.snd
        = seq_search_loop query rev_query sequences stop fuel fasta_it present := by
  intro fuel
  induction fuel with
  | zero => intro _ _ _; rfl
  | succ fuel ih =>
    intro fasta_it visited present
    rw [seq_search_visits, seq_search_loop]
    by_cases heq : fasta_it = stop
    · rw [if_pos heq, if_pos heq]; rfl
    · rw [if_neg heq, if_neg heq]
      cases hget : sequences[fasta_it]? with
      | none => rfl
      | some fasta =>
        simp only []
        by_cases hc : (fasta.hasSeq query || fasta.hasSeq rev_query) = true
        · rw [if_pos hc, if_pos hc]; exact ih _ _ _
        · rw [if_neg hc, if_neg hc]; exact ih _ _ _

theorem seq_search_visits_log (query rev_query : String) (sequences : List Fasta) (stop : Nat) :
    ∀ fuel fasta_it visited present, fasta_it ≤ stop → stop ≤ sequences.length →
      stop - fasta_it < fuel →
      ∃ names, seq_search_visits query rev_query sequences stop fuel fasta_it visited present
        = some (visited ++ List.range' fasta_it (stop - fasta_it), names) := by
  intro fuel
  induction fuel with
  | zero => intro fasta_it visited present _ _ h; omega
  | succ fuel ih =>
    intro fasta_it visited present h1 h2 h3
    rw [seq_search_visits]
    by_cases heq : fasta_it = stop
    · subst heq
      exact ⟨present, by simp⟩
    · have hlt : fasta_it < sequences.length := by omega
      have hsub : stop - fasta_it = (stop - (fasta_it + 1)) + 1 := by omega
      rw [if_neg heq, List.getElem?_eq_getElem hlt]
      simp only []
      rw [hsub, List.range'_succ]
      by_cases hc : (sequences[fasta_it].hasSeq query || sequences[fasta_it].hasSeq rev_query) = true
      · rw [if_pos hc]
        obtain ⟨names, h⟩ := ih (fasta_it + 1) (visited ++ [fasta_it])
          (present ++ [sequences[fasta_it].get_name]) (by omega) h2 (by omega)
        exact ⟨names, by rw [h]; simp⟩
      · rw [if_neg hc]
        obtain ⟨names, h⟩ := ih (fasta_it + 1) (visited ++ [fasta_it]) present (by omega) h2
          (by omega)
        exact ⟨names, by rw [h]; simp⟩

/-- The loop of `seq_search` on a valid range: it stops, and it dereferences the iterator
exactly at the offsets `start, ..., stop - 1`, once each. -/
theorem seq_search_visits_valid (query : String) (sequences : List Fasta) (start stop : Nat)
    (h1 : start ≤ stop) (h2 : stop ≤ sequences.length) :
    ∃ (visited : List Nat) (present : List String),
      seq_search_visits query (rev_comp query) sequences stop (sequences.length + 1) start [] []
        = some (visited, present)
      ∧ seq_search query sequences start stop = some present
      ∧ visited = List.range' start (stop - start)
      ∧ visited.length = stop - start
      ∧ ∀ i ∈ visited, i < sequences.length := by
  obtain ⟨names, h⟩ := seq_search_visits_log query (rev_comp query) sequences stop
    (sequences.length + 1) start [] [] h1 h2 (by omega)
  have herase := seq_search_visits_erase query (rev_comp query) sequences stop
    (sequences.length + 1) start [] []
  rw [h] at herase
  refine ⟨_, names, h, ?_, by simp, by simp, ?_⟩
  · simp only [seq_search]
    exact herase.symm
  · intro i hi
    rw [List.nil_append, List.mem_range'_1] at hi
    omega

/-- Claim C14, as stated, fails: with `2 ^ 32` threads the vector `start_points` never gets its
`T + 1` entries, since the partition loop never ends, and the launch loop never ends either;
its index `thread_idx + 1`, computed in 32 bits, is `0` and not `2 ^ 32` at the last value of
the counter. -/
theorem ranges_valid_and_in_bounds_fails :
    1 ≤ 2 ^ 32
      ∧ (∀ fuel iterations sp, make_start_points_u32 fuel 2 (2 ^ 32) ≠ .ok (iterations, sp))
      ∧ (∀ fuel unitig sp st res,
          launch_loop_u32 unitig sp (2 ^ 32) fuel 0 st 0 ≠ .ok res)
      ∧ (2 ^ 32 - 1 + 1) % 2 ^ 32 = 0 := by
  refine ⟨by decide, ?_, ?_, by decide⟩
  · intro fuel iterations sp h
    rw [make_start_points_u32_diverges 2 (2 ^ 32) fuel (Nat.le_refl _)] at h
    cases h
  · intro fuel unitig sp st res
    exact launch_loop_u32_diverges unitig sp (2 ^ 32) (Nat.le_refl _) fuel 0 st 0 res
      (by decide)

/-- Claim C14 (range validity, accesses in bounds), amended: for `1 ≤ T < 2 ^ 32`, fewer than
`2 ^ 64` sequences and every bound above `T` on the iterations of the counting loops,
`start_points` has `T + 1` entries and the launch loop ends after `T` iterations without
leaving it; for every `thread_idx < T` the index `thread_idx + 1` does not wrap, the indices
`thread_idx` and `thread_idx + 1` lie inside `start_points`, the pair read there satisfies
`start ≤ end ≤ size` and is the pair bound to the task of that thread index; and for every
pair with `start ≤ end ≤ size` the loop of `seq_search` stops after dereferencing exactly the
`end - start` offsets `start, ..., end - 1`, all of them inside the vector of sequences. -/
theorem ranges_valid_and_in_bounds (fuel : Nat) (sequences : List Fasta) (T : Nat) (hT : 1 ≤ T)
    (hT2 : T < 2 ^ 32) (hN : sequences.length < 2 ^ 64) (hfuel : T < fuel)
    (query : String) (st : State) :
    ∃ (sp : List Nat) (st1 : State),
      make_start_points_u32 fuel sequences.length T = .ok (T, sp)
      ∧ sp.length = T + 1
      ∧ launch_loop_u32 query sp T fuel 0 st 0 = .ok (T, st1)
      ∧ (∀ thread_idx, thread_idx < T →
          (thread_idx + 1) % 2 ^ 32 = thread_idx + 1
          ∧ thread_idx < sp.length ∧ thread_idx + 1 < sp.length
          ∧ ∃ start stop, sp[thread_idx]? = some start ∧ sp[thread_idx + 1]? = some stop
            ∧ start ≤ stop ∧ stop ≤ sequences.length
            ∧ st1.map_threads[st.map_threads.length + thread_idx]?
              = some { query := query, start := start, stop := stop, shared := .running })
      ∧ (∀ start stop, start ≤ stop → stop ≤ sequences.length →
          ∃ (visited : List Nat) (present : List String),
            seq_search_visits query (rev_comp query) sequences stop (sequences.length + 1)
                start [] []
              = some (visited, present)
            ∧ seq_search query sequences start stop = some present
            ∧ visited = List.range' start (stop - start)
            ∧ visited.length = stop - start
            ∧ ∀ i ∈ visited, i < sequences.length) := by
  have hlaunch := launch_loop_u32_closed query (start_point sequences.length T) T fuel hT2
    hfuel st
  refine ⟨_, _, make_start_points_u32_closed _ T fuel hT hT2 hN hfuel, by simp, hlaunch,
    ?_, ?_⟩
  · intro i hi
    refine ⟨Nat.mod_eq_of_lt (by omega), by simp; omega, by simp; omega, _, _,
      start_points_get _ T i (by omega),
      start_points_get _ T (i + 1) (by omega), start_point_mono _ _ (by omega),
      start_point_le_size _ _ _ hT (by omega), ?_⟩
    simp only []
    rw [List.getElem?_append_right (by omega), Nat.add_sub_cancel_left, List.getElem?_map,
      List.getElem?_range hi]
    rfl
  · intro start stop h1 h2
    exact seq_search_visits_valid query sequences start stop h1 h2

/-- Witness of the amended C14: the query `ACGT` over the example sequences with three
threads. -/
theorem ranges_valid_and_in_bounds_witness :
    1 ≤ 3 ∧ 3 < 2 ^ 32 ∧ example_sequences.length < 2 ^ 64 ∧ 3 < 4
      ∧ ∃ (sp : List Nat) (st1 : State),
        make_start_points_u32 4 example_sequences.length 3 = .ok (3, sp)
        ∧ sp.length = 3 + 1
        ∧ launch_loop_u32 "ACGT" sp 3 4 0 (State.init []) 0 = .ok (3, st1)
        ∧ (∀ thread_idx, thread_idx < 3 →
            (thread_idx + 1) % 2 ^ 32 = thread_idx + 1
            ∧ thread_idx < sp.length ∧ thread_idx + 1 < sp.length
            ∧ ∃ start stop, sp[thread_idx]? = some start ∧ sp[thread_idx + 1]? = some stop
              ∧ start ≤ stop ∧ stop ≤ example_sequences.length
              ∧ st1.map_threads[(State.init []).map_threads.length + thread_idx]?
                = some { query := "ACGT", start := start, stop := stop, shared := .running })
        ∧ (∀ start stop, start ≤ stop → stop ≤ example_sequences.length →
            ∃ (visited : List Nat) (present : List String),
              seq_search_visits "ACGT" (rev_comp "ACGT") example_sequences stop
                  (example_sequences.length + 1) start [] []
                = some (visited, present)
              ∧ seq_search "ACGT" example_sequences start stop = some present
              ∧ visited = List.range' start (stop - start)
              ∧ visited.length = stop - start
              ∧ ∀ i ∈ visited, i < example_sequences.length) :=
  ⟨by decide, by decide, by decide, by decide,
    ranges_valid_and_in_bounds 4 example_sequences 3 (by decide) (by decide) (by decide)
      (by decide) "ACGT" (State.init [])⟩

/-! ## The counting loops against their reference -/

/-- Claim C15 (mixed-width loop counter): with `thread_idx` and `num_big_threads` of 32 bits,
for `1 ≤ num_threads < 2 ^ 32` the value of `num_big_threads` is `size mod num_threads`, the
partition loop ends after exactly `num_threads` iterations (with the vector of the model
without wrap-around when the size fits 64 bits), and the launch loop ends after exactly
`num_threads` iterations in the state of the model without wrap-around. The bound matters: for
`num_threads ≥ 2 ^ 32` neither loop ever ends, and the remainder can be truncated. -/
theorem mixed_width_loop_counter (N T : Nat) (hT1 : 1 ≤ T) (hT2 : T < 2 ^ 32) :
    num_big_threads_u32 N T = N % T
      ∧ (∀ fuel, T < fuel →
          ∃ sp, make_start_points_u32 fuel N T = .ok (T, sp)
            ∧ (N < 2 ^ 64 → make_start_points N T = .ok sp))
      ∧ (∀ (fuel : Nat) (unitig : String) (st : State), T < fuel →
          ∃ sp st1, make_start_points N T = .ok sp
            ∧ launch_loop_u32 unitig sp T fuel 0 st 0 = .ok (T, st1)
            ∧ launch_loop unitig sp (List.range T) st = .ok st1)
      ∧ (∀ big fuel size, 2 ^ 32 ≤ big →
          make_start_points_u32 fuel size big = .error .fuel_exhausted)
      ∧ (∀ big fuel unitig sp st res, 2 ^ 32 ≤ big →
          launch_loop_u32 unitig sp big fuel 0 st 0 ≠ .ok res)
      ∧ num_big_threads_u32 (2 ^ 32) (2 ^ 32 + 1) ≠ 2 ^ 32 % (2 ^ 32 + 1) := by
  refine ⟨?_, ?_, ?_, ?_, ?_, ?_⟩
  · have := Nat.mod_lt N (show T > 0 by omega)
    exact Nat.mod_eq_of_lt (by omega)
  · intro fuel hfuel
    refine ⟨_, make_start_points_u32_eq N T hT1 hT2 fuel hfuel, ?_⟩
    intro hN
    rw [make_start_points_eq N T hT1]
    congr 1
    refine List.map_congr_left ?_
    intro i hi
    have hi : i < T + 1 := List.mem_range.mp hi
    have := start_point_le_size N T i hT1 (by omega)
    exact (Nat.mod_eq_of_lt (by omega)).symm
  · intro fuel unitig st hfuel
    have hnat := launch_loop_eq unitig (start_point N T) T (List.range T) st
      (fun i hi => List.mem_range.mp hi)
    have hu32 := launch_loop_u32_eq unitig ((List.range (T + 1)).map (start_point N T)) T hT2
      fuel 0 st 0 (Nat.zero_le _) (by omega)
    rw [Nat.sub_zero, ← List.range_eq_range', hnat, Nat.zero_add] at hu32
    exact ⟨_, _, make_start_points_eq N T hT1, hu32, hnat⟩
  · intro big fuel size hbig
    have h0 : big ≠ 0 := by omega
    simp only [make_start_points_u32, h0, if_false,
      partition_loop_u32_diverges big _ _ hbig fuel 0 0 [] 0 (by omega)]
  · intro big fuel unitig sp st res hbig
    exact launch_loop_u32_diverges unitig sp big hbig fuel 0 st 0 res (by omega)
  · decide

/-- Witness of C15: seven sequences and three threads. -/
theorem mixed_width_loop_counter_witness :
    1 ≤ 3 ∧ 3 < 2 ^ 32
      ∧ num_big_threads_u32 7 3 = 7 % 3
      ∧ (∀ fuel, 3 < fuel →
          ∃ sp, make_start_points_u32 fuel 7 3 = .ok (3, sp)
            ∧ (7 < 2 ^ 64 → make_start_points 7 3 = .ok sp))
      ∧ (∀ (fuel : Nat) (unitig : String) (st : State), 3 < fuel →
          ∃ sp st1, make_start_points 7 3 = .ok sp
            ∧ launch_loop_u32 unitig sp 3 fuel 0 st 0 = .ok (3, st1)
            ∧ launch_loop unitig sp (List.range 3) st = .ok st1)
      ∧ (∀ big fuel size, 2 ^ 32 ≤ big →
          make_start_points_u32 fuel size big = .error .fuel_exhausted)
      ∧ (∀ big fuel unitig sp st res, 2 ^ 32 ≤ big →
          launch_loop_u32 unitig sp big fuel 0 st 0 ≠ .ok res)
      ∧ num_big_threads_u32 (2 ^ 32) (2 ^ 32 + 1) ≠ 2 ^ 32 % (2 ^ 32 + 1) :=
  ⟨by decide, by decide, mixed_width_loop_counter 7 3 (by decide) (by decide)⟩


end MapStrings
